import Mathlib

/-!
Verification of core components of the Anoma ledger against its
natural-language specification.  The Rust source is shallowly embedded:
pure functions become Lean functions, stateful code becomes explicit
state passing, machine integers become `Nat` with explicit `% 2^w`
where overflow matters, and fallible code returns `Option`/`Except`.
-/

namespace AnomaSpec

/-- Byte strings are modelled as lists of naturals (each entry is one byte). -/
abbrev Bytes := List Nat

/-! ## Write log (spec section 4.D) and the shell's apply-tx decision

The write log type itself lives in `anoma_shared::ledger::storage::write_log`,
whose source file is not part of this snapshot; it is modelled from the spec.
The decision logic (`commit_tx` on acceptance, `drop_tx` on rejection) is
translated from `Shell::apply_tx` in `apps/src/lib/node/ledger/mod.rs`. -/

namespace WL

/-- Modelled from the spec: a staged mutation in the write log
(`Write(bytes) | Delete | InitAccount(vp)`), spec section 3 "Write log". -/
inductive StorageModification where
  | write (value : Bytes)
  | delete
  | initAccount (vp : Bytes)
deriving DecidableEq

/-- An insertion-ordered map from keys to staged modifications: an update of an
existing key replaces it in place, a new key is appended at the end. -/
def mapUpdate (m : List (String × StorageModification)) (k : String)
    (v : StorageModification) : List (String × StorageModification) :=
  if m.any (fun p => p.1 = k) then
    m.map (fun p => if p.1 = k then (k, v) else p)
  else m ++ [(k, v)]

/-- Lookup in an insertion-ordered map. -/
def mapLookup (m : List (String × StorageModification)) (k : String) :
    Option StorageModification :=
  (m.find? (fun p => p.1 = k)).map (fun p => p.2)

/-- Modelled from the spec: the two-tier write log, a tx-scoped and a
block-scoped insertion-ordered map of staged mutations (spec section 3). -/
structure WriteLog where
  tx_write_log : List (String × StorageModification)
  block_write_log : List (String × StorageModification)
deriving DecidableEq

/-- Modelled from the spec: `write` stages a tx-scope write. -/
def WriteLog.write (wl : WriteLog) (k : String) (v : Bytes) : WriteLog :=
  { wl with tx_write_log := mapUpdate wl.tx_write_log k (.write v) }

/-- Modelled from the spec: `delete` stages a tx-scope deletion. -/
def WriteLog.del (wl : WriteLog) (k : String) : WriteLog :=
  { wl with tx_write_log := mapUpdate wl.tx_write_log k .delete }

/-- Modelled from the spec: `init_account` stages a tx-scope account init
(a validity-predicate write). -/
def WriteLog.initAccount (wl : WriteLog) (k : String) (vp : Bytes) : WriteLog :=
  { wl with tx_write_log := mapUpdate wl.tx_write_log k (.initAccount vp) }

/-- Modelled from the spec: `commit_tx` merges the tx log into the block log
(on conflict the tx entry wins) and clears the tx log. -/
def WriteLog.commitTx (wl : WriteLog) : WriteLog :=
  { tx_write_log := []
    block_write_log :=
      wl.tx_write_log.foldl (fun b p => mapUpdate b p.1 p.2) wl.block_write_log }

/-- Modelled from the spec: `drop_tx` discards the tx writes; the block log and
storage are untouched. -/
def WriteLog.dropTx (wl : WriteLog) : WriteLog :=
  { wl with tx_write_log := [] }

/-- Interpretation of one staged modification as an observable read result:
`Delete` yields absent, writes and account inits yield their bytes. -/
def readMod : StorageModification → Option Bytes
  | .write v => some v
  | .delete => none
  | .initAccount vp => some vp

/-- Modelled from the spec: `read` resolves tx log, then block log, then the
committed storage; a `Delete` in either overlay yields absent. -/
def WriteLog.read (wl : WriteLog) (storage : String → Option Bytes)
    (k : String) : Option Bytes :=
  match mapLookup wl.tx_write_log k with
  | some m => readMod m
  | none =>
    match mapLookup wl.block_write_log k with
    | some m => readMod m
    | none => storage k

/-- Modelled from the spec: `commit_block` folds the surviving block-scope
writes into the committed storage. -/
def WriteLog.commitBlock (wl : WriteLog) (storage : String → Option Bytes) :
    String → Option Bytes :=
  wl.block_write_log.foldl
    (fun st p k => if k = p.1 then readMod p.2 else st k) storage

/-- A tx-scope operation that transaction code may perform on the write log. -/
inductive TxOp where
  | write (k : String) (v : Bytes)
  | del (k : String)
  | initAccount (k : String) (vp : Bytes)

/-- Run a sequence of tx-scope operations against the write log. -/
def applyTxOps (wl : WriteLog) (ops : List TxOp) : WriteLog :=
  ops.foldl
    (fun wl op =>
      match op with
      | .write k v => wl.write k v
      | .del k => wl.del k
      | .initAccount k vp => wl.initAccount k vp)
    wl

/-- Acceptance of a transaction, from the spec of the protocol
(`accepted = conjunction of all VP results`). -/
def isAccepted (vps : List Bool) : Bool := vps.all id

/-- Translated from `Shell::apply_tx` (`apps/src/lib/node/ledger/mod.rs`):
if the result is accepted the tx log is committed into the block log,
otherwise the tx log is dropped. -/
def applyTxDecision (vps : List Bool) (wl : WriteLog) : WriteLog :=
  if isAccepted vps then wl.commitTx else wl.dropTx

theorem applyTxOps_block_eq (ops : List TxOp) (wl : WriteLog) :
    (applyTxOps wl ops).block_write_log = wl.block_write_log := by
  induction ops generalizing wl with
  | nil => rfl
  | cons op ops ih =>
    cases op <;>
      simp [applyTxOps, List.foldl_cons, WriteLog.write, WriteLog.del,
        WriteLog.initAccount] <;>
      exact ih _

theorem isAccepted_eq_false {vps : List Bool} (h : false ∈ vps) :
    isAccepted vps = false := by
  rcases Bool.eq_false_or_eq_true (isAccepted vps) with ht | hf
  · exact absurd (List.all_eq_true.mp ht false h) (by simp)
  · exact hf

end WL

/-! ## Prefix iterator table (`shared/src/vm/prefix_iter.rs`) -/

namespace PIt

/-- Translated from `PrefixIterators` in `shared/src/vm/prefix_iter.rs`:
a table of live iterators keyed by a monotonically increasing id.  An
iterator is modelled by the list of its remaining items. -/
structure PrefixIterators (α : Type) where
  index : Nat
  iterators : List (Nat × List α)

/-- Translated from `PrefixIterators::default`. -/
def PrefixIterators.empty (α : Type) : PrefixIterators α := ⟨0, []⟩

/-- Translated from `PrefixIterators::insert`: store the iterator under the
current index, return the assigned id, and bump the index. -/
def PrefixIterators.insert (p : PrefixIterators α) (it : List α) :
    Nat × PrefixIterators α :=
  (p.index, ⟨p.index + 1, p.iterators ++ [(p.index, it)]⟩)

/-- Lookup of an iterator id in the table (the `HashMap` lookup). -/
def PrefixIterators.lookup (p : PrefixIterators α) (id : Nat) :
    Option (List α) :=
  (p.iterators.find? (fun q => q.1 = id)).map (fun q => q.2)

/-- Translated from `PrefixIterators::next`: a missing id yields `None`,
a present id yields that iterator's next item and advances it in place. -/
def PrefixIterators.next (p : PrefixIterators α) (id : Nat) :
    Option α × PrefixIterators α :=
  match p.lookup id with
  | none => (none, p)
  | some it =>
    (it.head?,
      ⟨p.index, p.iterators.map (fun q => if q.1 = id then (id, it.tail) else q)⟩)

end PIt

/-! ## SHA-256 (model of the `sha2` crate used by the address generator) -/

namespace SHA256

/-- Two to the thirty-second power, the modulus of 32-bit words. -/
def M32 : Nat := 4294967296

/-- Right rotation of a 32-bit word. -/
def rotr (n x : Nat) : Nat := ((x >>> n) ||| (x <<< (32 - n))) % M32

/-- Addition of 32-bit words. -/
def add32 (a b : Nat) : Nat := (a + b) % M32

/-- Round constants of SHA-256. -/
def K : List Nat :=
  [1116352408, 1899447441, 3049323471, 3921009573, 961987163, 1508970993,
   2453635748, 2870763221, 3624381080, 310598401, 607225278, 1426881987,
   1925078388, 2162078206, 2614888103, 3248222580, 3835390401, 4022224774,
   264347078, 604807628, 770255983, 1249150122, 1555081692, 1996064986,
   2554220882, 2821834349, 2952996808, 3210313671, 3336571891, 3584528711,
   113926993, 338241895, 666307205, 773529912, 1294757372, 1396182291,
   1695183700, 1986661051, 2177026350, 2456956037, 2730485921, 2820302411,
   3259730800, 3345764771, 3516065817, 3600352804, 4094571909, 275423344,
   430227734, 506948616, 659060556, 883997877, 958139571, 1322822218,
   1537002063, 1747873779, 1955562222, 2024104815, 2227730452, 2361852424,
   2428436474, 2756734187, 3204031479, 3329325298]

/-- The eight-word hash state. -/
structure St where
  a : Nat
  b : Nat
  c : Nat
  d : Nat
  e : Nat
  f : Nat
  g : Nat
  h : Nat

/-- Initial hash state of SHA-256. -/
def H0 : St :=
  ⟨0x6a09e667, 0xbb67ae85, 0x3c6ef372, 0xa54ff53a,
   0x510e527f, 0x9b05688c, 0x1f83d9ab, 0x5be0cd19⟩

def bigS0 (x : Nat) : Nat := rotr 2 x ^^^ rotr 13 x ^^^ rotr 22 x

def bigS1 (x : Nat) : Nat := rotr 6 x ^^^ rotr 11 x ^^^ rotr 25 x

def smallS0 (x : Nat) : Nat := rotr 7 x ^^^ rotr 18 x ^^^ (x >>> 3)

def smallS1 (x : Nat) : Nat := rotr 17 x ^^^ rotr 19 x ^^^ (x >>> 10)

def ch (e f g : Nat) : Nat := (e &&& f) ^^^ (((M32 - 1) ^^^ e) &&& g)

def maj (a b c : Nat) : Nat := (a &&& b) ^^^ (a &&& c) ^^^ (b &&& c)

/-- Extend the sixteen block words into the 64-entry message schedule. -/
def extendW (w16 : List Nat) : List Nat :=
  (List.range 48).foldl
    (fun w i =>
      w ++ [add32 (add32 (w.getD i 0) (smallS0 (w.getD (i + 1) 0)))
              (add32 (w.getD (i + 9) 0) (smallS1 (w.getD (i + 14) 0)))])
    w16

/-- One compression round, consuming a round constant and a schedule word. -/
def round (s : St) (kw : Nat × Nat) : St :=
  let t1 := add32 (add32 (add32 s.h (bigS1 s.e)) (ch s.e s.f s.g))
    (add32 kw.1 kw.2)
  let t2 := add32 (bigS0 s.a) (maj s.a s.b s.c)
  ⟨add32 t1 t2, s.a, s.b, s.c, add32 s.d t1, s.e, s.f, s.g⟩

/-- Read a big-endian 32-bit word out of a byte list at an offset. -/
def w32At (bs : Bytes) (off : Nat) : Nat :=
  bs.getD off 0 * 0x1000000 + bs.getD (off + 1) 0 * 0x10000 +
    bs.getD (off + 2) 0 * 0x100 + bs.getD (off + 3) 0

/-- Compress one 64-byte block into the hash state. -/
def processBlock (H : St) (block : Bytes) : St :=
  let w16 := (List.range 16).map (fun i => w32At block (4 * i))
  let s := (K.zip (extendW w16)).foldl round H
  ⟨add32 H.a s.a, add32 H.b s.b, add32 H.c s.c, add32 H.d s.d,
   add32 H.e s.e, add32 H.f s.f, add32 H.g s.g, add32 H.h s.h⟩

/-- Big-endian bytes of a 64-bit value. -/
def w64Bytes (n : Nat) : Bytes :=
  [n / 0x100000000000000 % 256, n / 0x1000000000000 % 256,
   n / 0x10000000000 % 256, n / 0x100000000 % 256, n / 0x1000000 % 256,
   n / 0x10000 % 256, n / 0x100 % 256, n % 256]

/-- Big-endian bytes of a 32-bit word. -/
def w32Bytes (n : Nat) : Bytes :=
  [n / 0x1000000 % 256, n / 0x10000 % 256, n / 0x100 % 256, n % 256]

/-- SHA-256 padding: a 0x80 byte, zeros to 56 mod 64, then the bit length. -/
def pad (msg : Bytes) : Bytes :=
  msg ++ 0x80 :: List.replicate ((64 + 55 - msg.length % 64) % 64) 0 ++
    w64Bytes (8 * msg.length % 0x10000000000000000)

/-- The SHA-256 digest of a byte string, as 32 bytes. -/
def sha256 (msg : Bytes) : Bytes :=
  let padded := pad msg
  let s := (List.range (padded.length / 64)).foldl
    (fun H i => processBlock H ((padded.drop (64 * i)).take 64)) H0
  w32Bytes s.a ++ w32Bytes s.b ++ w32Bytes s.c ++ w32Bytes s.d ++
    w32Bytes s.e ++ w32Bytes s.f ++ w32Bytes s.g ++ w32Bytes s.h

theorem sha256_length (msg : Bytes) : (sha256 msg).length = 32 := by
  simp [sha256, w32Bytes]

end SHA256

/-! ## Addresses and the established-address generator
(`shared/src/types/address.rs`) -/

namespace Addr

/-- Translated from `Address` in `shared/src/types/address.rs`.  The inner
strings (`EstablishedAddress::hash`, the Ed25519 public-key hash) are modelled
by their UTF-8 bytes, so `length` is the Rust `String::len`. -/
inductive Address where
  | established (hash : Bytes)
  | implicitEd25519 (pkh : Bytes)
deriving DecidableEq

/-- Translated from `EstablishedAddressGen`: the generator state holds the
last generated hash (a string, modelled by its UTF-8 bytes). -/
structure EstablishedAddressGen where
  last_hash : Bytes
deriving DecidableEq

/-- Little-endian bytes of a 32-bit value (the Borsh length prefix). -/
def u32LE (n : Nat) : Bytes :=
  [n % 256, n / 0x100 % 256, n / 0x10000 % 256, n / 0x1000000 % 256]

/-- Borsh serialization of `EstablishedAddressGen` (a struct with a single
`String` field): a little-endian `u32` length followed by the UTF-8 bytes. -/
def borshGen (g : EstablishedAddressGen) : Bytes :=
  u32LE (g.last_hash.length % 0x100000000) ++ g.last_hash

/-- Upper-case hexadecimal digit of a value below 16, as an ASCII code. -/
def hexDigit (d : Nat) : Nat := if d < 10 then 48 + d else 55 + d

/-- Upper-case hexadecimal rendering of a byte string, as ASCII codes. -/
def hexUpper (bs : Bytes) : Bytes :=
  bs.flatMap (fun b => [hexDigit (b / 16 % 16), hexDigit (b % 16)])

theorem hexUpper_length (bs : Bytes) : (hexUpper bs).length = 2 * bs.length := by
  induction bs with
  | nil => rfl
  | cons b bs ih => simp [hexUpper, List.flatMap] at ih ⊢; omega

/-- The hash length enforced on addresses (`HASH_LEN`). -/
def HASH_LEN : Nat := 40

/-- Translated from `EstablishedAddressGen::generate_address`: hash the Borsh
encoding of the generator state concatenated with the randomness source,
render the first `HASH_LEN` upper-case hex characters (the Rust
`format!` with precision 40 over the digest), store it as the new
`last_hash` and return it as an `Established` address. -/
def generateAddress (g : EstablishedAddressGen) (rng : Bytes) :
    Address × EstablishedAddressGen :=
  let digest := SHA256.sha256 (borshGen g ++ rng)
  let hash := (hexUpper digest).take HASH_LEN
  (Address.established hash, ⟨hash⟩)

/-- Run the generator over a sequence of randomness sources, collecting the
generated addresses and the final generator state. -/
def generateSeq (g : EstablishedAddressGen) (srcs : List Bytes) :
    List Address × EstablishedAddressGen :=
  srcs.foldl
    (fun p src =>
      let q := generateAddress p.2 src
      (p.1 ++ [q.1], q.2))
    ([], g)

end Addr

/-! ## RocksDB block writing (`apps/src/lib/node/ledger/storage/rocksdb.rs`)

The DB is modelled as a map from structured keys to byte values.  A structured
key mirrors the path strings built by `write_block`: the top-level pointers
`"chain_id"` and `"height"`, and per-block rows `"<height>/<path...>"` (path
segments never contain `/`, so the structured form is in bijection with the
strings). -/

namespace RDB

/-- A key of the underlying DB. -/
inductive DBKey where
  | chainId
  | height
  | blockRow (h : Nat) (path : List String)
deriving DecidableEq

/-- The observable DB state: a map from keys to byte values. -/
def DBState := DBKey → Option Bytes

/-- A single RocksDB `put`. -/
def put (d : DBState) (k : DBKey) (v : Bytes) : DBState :=
  fun q => if q = k then some v else d q

/-- Apply a write batch: a sequence of `put`s, atomically visible. -/
def applyPuts (d : DBState) (ps : List (DBKey × Bytes)) : DBState :=
  ps.foldl (fun d p => put d p.1 p.2) d

/-- Little-endian bytes of a 64-bit value (the Borsh encoding of a `u64`,
used for `types::encode(&height)`). -/
def u64LE (n : Nat) : Bytes :=
  [n % 256, n / 0x100 % 256, n / 0x10000 % 256, n / 0x1000000 % 256,
   n / 0x100000000 % 256, n / 0x10000000000 % 256,
   n / 0x1000000000000 % 256, n / 0x100000000000000 % 256]

/-- Translated from `RocksDB::write_block`: the write batch covering every
sub-key of the block, in the order the source issues the `put`s
(tree root, tree store, block hash, all subspace rows, address generator). -/
def writeBlockBatch (h : Nat) (root store hash gen : Bytes)
    (subspaces : List (List String × Bytes)) : List (DBKey × Bytes) :=
  [(DBKey.blockRow h ["tree", "root"], root),
   (DBKey.blockRow h ["tree", "store"], store),
   (DBKey.blockRow h ["hash"], hash)] ++
  subspaces.map (fun p => (DBKey.blockRow h ("subspace" :: p.1), p.2)) ++
  [(DBKey.blockRow h ["address_gen"], gen)]

/-- Translated from `RocksDB::write_block`: the sequence of observable DB
states.  The batch is written atomically first; the top-level `height`
pointer is written by a separate `put` only afterwards ("write after
everything else is written"). -/
def writeBlockStates (d : DBState) (h : Nat) (root store hash gen : Bytes)
    (subspaces : List (List String × Bytes)) : List DBState :=
  [d, applyPuts d (writeBlockBatch h root store hash gen subspaces),
   put (applyPuts d (writeBlockBatch h root store hash gen subspaces))
     DBKey.height (u64LE h)]

/-- The four essential rows of a block are present. -/
def CompleteBlock (d : DBState) (h : Nat) : Prop :=
  (d (DBKey.blockRow h ["tree", "root"])).isSome ∧
  (d (DBKey.blockRow h ["tree", "store"])).isSome ∧
  (d (DBKey.blockRow h ["hash"])).isSome ∧
  (d (DBKey.blockRow h ["address_gen"])).isSome

theorem u64LE_inj {m n : Nat} (hm : m < 0x10000000000000000)
    (hn : n < 0x10000000000000000) (h : u64LE m = u64LE n) : m = n := by
  simp only [u64LE, List.cons.injEq, and_true] at h
  omega

theorem applyPuts_not_mem (d : DBState) (ps : List (DBKey × Bytes))
    (k : DBKey) (h : ∀ p ∈ ps, p.1 ≠ k) : applyPuts d ps k = d k := by
  induction ps generalizing d with
  | nil => rfl
  | cons p ps ih =>
    have hp : p.1 ≠ k := h p (List.mem_cons_self p ps)
    rw [applyPuts, List.foldl_cons, ← applyPuts,
      ih _ (fun q hq => h q (List.mem_cons_of_mem p hq))]
    unfold put
    rw [if_neg (fun hk => hp hk.symm)]

theorem put_isSome_mono (d : DBState) (k k' : DBKey) (v : Bytes)
    (h : (d k').isSome) : ((put d k v) k').isSome := by
  unfold put
  by_cases hk : k' = k <;> simp [hk, h]

theorem applyPuts_isSome_mono (d : DBState) (ps : List (DBKey × Bytes))
    (k : DBKey) (h : (d k).isSome) : (applyPuts d ps k).isSome := by
  induction ps generalizing d with
  | nil => exact h
  | cons p ps ih =>
    rw [applyPuts, List.foldl_cons, ← applyPuts]
    exact ih _ (put_isSome_mono d p.1 k p.2 h)

theorem applyPuts_isSome_of_mem (d : DBState) (ps : List (DBKey × Bytes))
    (k : DBKey) (v : Bytes) (h : (k, v) ∈ ps) : (applyPuts d ps k).isSome := by
  induction ps generalizing d with
  | nil => exact absurd h (List.not_mem_nil _)
  | cons p ps ih =>
    rw [applyPuts, List.foldl_cons, ← applyPuts]
    rcases List.mem_cons.mp h with heq | hmem
    · exact applyPuts_isSome_mono _ ps k (by simp [put, ← heq])
    · exact ih _ hmem

end RDB

/-! ## Reading the last committed block
(`RocksDB::read_last_block` in `apps/src/lib/node/ledger/storage/rocksdb.rs`)

The scan of the range `[<height>/, <height+1>/)` is modelled by a per-height
list of rows whose paths are given as their `/`-split segments (the source
splits each UTF-8 path on `/` before dispatching).  Borsh decoding of the
stored values (`types::decode`, an external crate) is a parameter. -/

namespace RLB

/-- The storage error variants reachable from `read_last_block`
(from `anoma_shared::ledger::storage::Error`). -/
inductive RError where
  | temporary (msg : String)
  | unknownKey (path : List String)
  | codingError (msg : String)
deriving DecidableEq

/-- Decoders for the stored values; `types::decode` is Borsh decoding from an
external crate, so it enters the model as a parameter.  `parseKey` stands for
`Key::parse` applied to the segments after the `<height>/subspace/` prefix. -/
structure Codecs where
  decodeChainId : Bytes → Except String Bytes
  decodeHeight : Bytes → Except String Nat
  decodeRoot : Bytes → Except String Bytes
  decodeStore : Bytes → Except String Bytes
  decodeHash : Bytes → Except String Bytes
  decodeGen : Bytes → Except String Bytes
  parseKey : List String → Except String (List String)

/-- The DB as seen by `read_last_block`: the two top-level pointers and, for
each height, the rows of the range `[<height>/, <height+1>/)` in scan order. -/
structure RDBModel where
  chainId : Option Bytes
  height : Option Bytes
  blocks : Nat → List (List String × Bytes)

/-- The reconstruction accumulator of the scan loop. -/
structure Acc where
  root : Option Bytes
  store : Option Bytes
  hash : Option Bytes
  addressGen : Option Bytes
  subspaces : List (List String × Bytes)

/-- The initial accumulator (all fields `None`, no subspaces). -/
def Acc.empty : Acc := ⟨none, none, none, none, []⟩

/-- The reconstructed block state returned on success. -/
structure BlockState where
  chain_id : Bytes
  root : Bytes
  store : Bytes
  hash : Bytes
  height : Nat
  subspaces : List (List String × Bytes)
  address_gen : Bytes

/-- Translated from the scan loop of `read_last_block`: dispatch one row on
its second path segment.  `tree/root`, `tree/store`, `hash` and `address_gen`
decode into the accumulator; `subspace` rows reconstruct the key (the
reserved `?` segment rebuilds a validity-predicate key, which equals the
segments after the prefix; any other key goes through `Key::parse`, a
failure being a `Temporary` error); anything else is an `UnknownKey`. -/
def processRow (c : Codecs) (acc : Acc) (row : List String × Bytes) :
    Except RError Acc :=
  match row.1.get? 1 with
  | none => .error (.unknownKey row.1)
  | some seg =>
    if seg = "tree" then
      match row.1.get? 2 with
      | none => .error (.unknownKey row.1)
      | some smt =>
        if smt = "root" then
          match c.decodeRoot row.2 with
          | .error e => .error (.codingError e)
          | .ok r => .ok { acc with root := some r }
        else if smt = "store" then
          match c.decodeStore row.2 with
          | .error e => .error (.codingError e)
          | .ok s => .ok { acc with store := some s }
        else .error (.unknownKey row.1)
    else if seg = "hash" then
      match c.decodeHash row.2 with
      | .error e => .error (.codingError e)
      | .ok hsh => .ok { acc with hash := some hsh }
    else if seg = "subspace" then
      if row.1.get? 3 = some "?" then
        .ok { acc with subspaces := acc.subspaces ++ [(row.1.drop 2, row.2)] }
      else
        match c.parseKey (row.1.drop 2) with
        | .error e => .error (.temporary e)
        | .ok key => .ok { acc with subspaces := acc.subspaces ++ [(key, row.2)] }
    else if seg = "address_gen" then
      match c.decodeGen row.2 with
      | .error e => .error (.codingError e)
      | .ok g => .ok { acc with addressGen := some g }
    else .error (.unknownKey row.1)

/-- Translated from `RocksDB::read_last_block`: absent `chain_id` or `height`
pointers yield `Ok(None)`; decode failures on the pointers are coding errors;
the block's rows are folded through `processRow`; missing essential data after
the scan is a fatal `Temporary` error. -/
def readLastBlock (c : Codecs) (db : RDBModel) :
    Except RError (Option BlockState) :=
  match db.chainId with
  | none => .ok none
  | some cb =>
    match c.decodeChainId cb with
    | .error e => .error (.codingError e)
    | .ok chainId =>
      match db.height with
      | none => .ok none
      | some hb =>
        match c.decodeHeight hb with
        | .error e => .error (.codingError e)
        | .ok height =>
          match (db.blocks height).foldlM (processRow c) Acc.empty with
          | .error e => .error e
          | .ok acc =>
            match acc.root, acc.store, acc.hash, acc.addressGen with
            | some root, some store, some hash, some gen =>
              .ok (some ⟨chainId, root, store, hash, height,
                acc.subspaces, gen⟩)
            | _, _, _, _ =>
              .error (.temporary "Essential data couldn't be read from the DB")

theorem readLastBlock_row_error (c : Codecs) (db : RDBModel)
    (cb : Bytes) (ci : Bytes) (hb : Bytes) (h : Nat)
    (pre : List (List String × Bytes)) (bad : List String × Bytes)
    (post : List (List String × Bytes)) (acc : Acc) (e : RError)
    (hcb : db.chainId = some cb) (hci : c.decodeChainId cb = .ok ci)
    (hhb : db.height = some hb) (hh : c.decodeHeight hb = .ok h)
    (hrows : db.blocks h = pre ++ bad :: post)
    (hfold : pre.foldlM (processRow c) Acc.empty = .ok acc)
    (hbad : processRow c acc bad = .error e) :
    readLastBlock c db = .error e := by
  have hfold2 : (db.blocks h).foldlM (processRow c) Acc.empty = .error e := by
    rw [hrows, List.foldlM_append, hfold]
    show (processRow c acc bad >>= _) = _
    rw [hbad]
    rfl
  simp only [readLastBlock, hcb, hci, hhb, hh, hfold2]

end RLB

/-! ## Matchmaker filter and intent admission
(`apps/src/lib/node/gossip/intent_gossiper/matchmaker.rs`)

The WASM filter (`Filter::validate`), the intent id hash and the matchmaker
WASM runner (`MmRunner::run`) are external executions; they enter the model
as parameters.  The `IntentMempool` type is not under `src/`; it is modelled
from the spec (a map `IntentId → Intent` with idempotent `put`). -/

namespace MM

/-- An intent: opaque payload bytes and a timestamp (`proto::Intent`). -/
structure Intent where
  data : Bytes
  timestampSec : Nat
deriving DecidableEq

/-- Modelled from the spec: idempotent `put` of an intent mempool keyed by
intent id. -/
def mempoolPut (mp : List (Bytes × Intent)) (id : Bytes) (i : Intent) :
    List (Bytes × Intent) :=
  if mp.any (fun p => p.1 = id) then
    mp.map (fun p => if p.1 = id then (id, i) else p)
  else mp ++ [(id, i)]

/-- Translated from the `Matchmaker` struct: the mempool, the optional WASM
filter (modelled by its `validate` function), the matchmaker code and its
opaque state bytes. -/
structure Matchmaker where
  mempool : List (Bytes × Intent)
  filter : Option (Intent → Except String Bool)
  matchmaker_code : Bytes
  data : Bytes

/-- The error variants of the matchmaker reachable from `try_match_intent`. -/
inductive MErr where
  | filter (e : String)
  | runnerFailed (e : String)

/-- Translated from `Matchmaker::apply_filter`: with no filter configured the
intent is accepted (`true`); otherwise the filter's `validate` result is
returned, its error mapped to `Error::Filter`. -/
def applyFilter (m : Matchmaker) (intent : Intent) : Except MErr Bool :=
  match m.filter with
  | none => .ok true
  | some f =>
    match f intent with
    | .ok b => .ok b
    | .error e => .error (.filter e)

/-- The matchmaker with an intent inserted into its mempool. -/
def insertIntent (idOf : Intent → Bytes) (m : Matchmaker) (intent : Intent) :
    Matchmaker :=
  { m with mempool := mempoolPut m.mempool (idOf intent) intent }

/-- Invocation of the matchmaker WASM
(`MmRunner::run(matchmaker_code, data, intent.id().0, intent.data, host)`),
followed by the source's `Result::unwrap`: a runner error is a panic,
modelled as `none`. -/
def runnerStep (idOf : Intent → Bytes)
    (runner : Bytes → Bytes → Bytes → Bytes → Except String Bool)
    (m : Matchmaker) (intent : Intent) :
    Option (Matchmaker × Except MErr Bool) :=
  match runner m.matchmaker_code m.data (idOf intent) intent.data with
  | .ok b => some (m, .ok b)
  | .error _ => none

/-- Translated from `Matchmaker::try_match_intent`: when the filter accepts,
the intent is put into the mempool and the matchmaker WASM runs; when it
rejects, the result is `Ok(false)` with the mempool untouched; a filter error
propagates. -/
def tryMatchIntent (idOf : Intent → Bytes)
    (runner : Bytes → Bytes → Bytes → Bytes → Except String Bool)
    (m : Matchmaker) (intent : Intent) :
    Option (Matchmaker × Except MErr Bool) :=
  match applyFilter m intent with
  | .error e => some (m, .error e)
  | .ok false => some (m, .ok false)
  | .ok true => runnerStep idOf runner (insertIntent idOf m intent) intent

end MM

/-! ## Transaction envelope codec (`apps/src/lib/proto/types.rs`)

`Tx::try_from` and `Tx::to_bytes` are translated from the source; the
Protobuf wire codec of the generated message `types::Tx` is modelled from the
spec ("over-the-wire encoding is Protobuf", `Tx { code, data, timestamp }`):
proto3 length-delimited fields `code = 1`, `data = 2`,
`timestamp = 3` (a `google.protobuf.Timestamp` submessage with varint fields
`seconds = 1`, `nanos = 2`), default-valued fields omitted on encode.  The
varint decoder is structural (it does not enforce prost's ten-byte cap, which
only differs on inputs no encoder produces). -/

namespace Proto

/-- Little-endian base-128 varint encoding. -/
def varintEnc (n : Nat) : Bytes :=
  if h : n < 0x80 then [n]
  else (n % 0x80 + 0x80) :: varintEnc (n / 0x80)
decreasing_by exact Nat.div_lt_self (by omega) (by omega)

/-- Varint decoding, returning the value and the remaining bytes. -/
def varintDec : Bytes → Option (Nat × Bytes)
  | [] => none
  | b :: rest =>
    if b < 0x80 then some (b, rest)
    else (varintDec rest).map (fun p => (b % 0x80 + 0x80 * p.1, p.2))

/-- The wire image of a `google.protobuf.Timestamp`: `seconds` is the
two's-complement image of the `i64` (below `2^64`), `nanos` the image of the
`i32` (below `2^32`). -/
structure ProtoTimestamp where
  seconds : Nat
  nanos : Nat
deriving DecidableEq

/-- Sign extension of a 32-bit two's-complement image to 64 bits (prost
encodes `int32` values as 64-bit varints). -/
def signExt32 (n : Nat) : Nat :=
  if n < 0x80000000 then n else n + 0xffffffff00000000

/-- Modelled from the spec: proto3 encoding of a `Timestamp` submessage,
omitting zero-valued fields. -/
def encodeTs (t : ProtoTimestamp) : Bytes :=
  (if t.seconds = 0 then [] else 0x08 :: varintEnc t.seconds) ++
    (if t.nanos = 0 then [] else 0x10 :: varintEnc (signExt32 t.nanos))

/-- The field loop of the `Timestamp` decoder: known fields expect the varint
wire type, unknown fields are skipped by wire type. -/
def decodeTsFields : Nat → Bytes → ProtoTimestamp → Option ProtoTimestamp
  | _, [], acc => some acc
  | 0, _ :: _, _ => none
  | fuel + 1, b :: bs, acc =>
    match varintDec (b :: bs) with
    | none => none
    | some (tag, rest) =>
      if tag / 8 = 1 then
        if tag % 8 = 0 then
          match varintDec rest with
          | none => none
          | some (v, rest2) => decodeTsFields fuel rest2 { acc with seconds := v }
        else none
      else if tag / 8 = 2 then
        if tag % 8 = 0 then
          match varintDec rest with
          | none => none
          | some (v, rest2) =>
            decodeTsFields fuel rest2 { acc with nanos := v % 0x100000000 }
        else none
      else
        match tag % 8 with
        | 0 =>
          match varintDec rest with
          | none => none
          | some (_, rest2) => decodeTsFields fuel rest2 acc
        | 1 => if 8 ≤ rest.length then decodeTsFields fuel (rest.drop 8) acc else none
        | 2 =>
          match varintDec rest with
          | none => none
          | some (len, rest2) =>
            if len ≤ rest2.length then decodeTsFields fuel (rest2.drop len) acc
            else none
        | 5 => if 4 ≤ rest.length then decodeTsFields fuel (rest.drop 4) acc else none
        | _ => none

/-- Decoding of a `Timestamp` submessage payload. -/
def decodeTs (bs : Bytes) : Option ProtoTimestamp :=
  decodeTsFields bs.length bs ⟨0, 0⟩

/-- The generated message `types::Tx` as decoded/encoded on the wire. -/
structure ProtoTx where
  code : Bytes
  data : Option Bytes
  timestamp : Option ProtoTimestamp
deriving DecidableEq

/-- Modelled from the spec: proto3 encoding of `types::Tx`, fields in
declaration order, default-valued fields omitted. -/
def encodeProtoTx (t : ProtoTx) : Bytes :=
  (if t.code = [] then [] else 0x0a :: (varintEnc t.code.length ++ t.code)) ++
    (match t.data with
     | none => []
     | some d => 0x12 :: (varintEnc d.length ++ d)) ++
    (match t.timestamp with
     | none => []
     | some ts => 0x1a :: (varintEnc (encodeTs ts).length ++ encodeTs ts))

/-- The field loop of the `types::Tx` decoder: the three known fields expect
the length-delimited wire type, unknown fields are skipped by wire type. -/
def decodeTxFields : Nat → Bytes → ProtoTx → Option ProtoTx
  | _, [], acc => some acc
  | 0, _ :: _, _ => none
  | fuel + 1, b :: bs, acc =>
    match varintDec (b :: bs) with
    | none => none
    | some (tag, rest) =>
      if tag / 8 = 1 ∨ tag / 8 = 2 ∨ tag / 8 = 3 then
        if tag % 8 = 2 then
          match varintDec rest with
          | none => none
          | some (len, rest2) =>
            if len ≤ rest2.length then
              if tag / 8 = 1 then
                decodeTxFields fuel (rest2.drop len) { acc with code := rest2.take len }
              else if tag / 8 = 2 then
                decodeTxFields fuel (rest2.drop len) { acc with data := some (rest2.take len) }
              else
                match decodeTs (rest2.take len) with
                | none => none
                | some ts =>
                  decodeTxFields fuel (rest2.drop len) { acc with timestamp := some ts }
            else none
        else none
      else
        match tag % 8 with
        | 0 =>
          match varintDec rest with
          | none => none
          | some (_, rest2) => decodeTxFields fuel rest2 acc
        | 1 => if 8 ≤ rest.length then decodeTxFields fuel (rest.drop 8) acc else none
        | 2 =>
          match varintDec rest with
          | none => none
          | some (len, rest2) =>
            if len ≤ rest2.length then decodeTxFields fuel (rest2.drop len) acc
            else none
        | 5 => if 4 ≤ rest.length then decodeTxFields fuel (rest.drop 4) acc else none
        | _ => none

/-- Decoding of `types::Tx` from wire bytes. -/
def decodeProtoTx (bs : Bytes) : Option ProtoTx :=
  decodeTxFields bs.length bs ⟨[], none, none⟩

theorem varintDec_enc (n : Nat) (rest : Bytes) :
    varintDec (varintEnc n ++ rest) = some (n, rest) := by
  induction n using Nat.strong_induction_on with
  | _ n ih =>
    rw [varintEnc]
    split
    next h => simp [varintDec, h]
    next h =>
      simp only [List.cons_append, varintDec, List.append_eq]
      rw [if_neg (by omega)]
      rw [ih (n / 0x80) (Nat.div_lt_self (by omega) (by omega))]
      have harith : (n % 0x80 + 0x80) % 0x80 + 0x80 * (n / 0x80) = n := by
        omega
      show some ((n % 0x80 + 0x80) % 0x80 + 0x80 * (n / 0x80), rest) =
        some (n, rest)
      rw [harith]

theorem decodeTsFields_nil (fuel : Nat) (acc : ProtoTimestamp) :
    decodeTsFields fuel [] acc = some acc := by
  cases fuel <;> rfl

theorem decodeTsFields_sec (fuel s : Nat) (rest : Bytes)
    (acc : ProtoTimestamp) :
    decodeTsFields (fuel + 1) (0x08 :: (varintEnc s ++ rest)) acc =
      decodeTsFields fuel rest { acc with seconds := s } := by
  simp [decodeTsFields, varintDec, varintDec_enc]

theorem decodeTsFields_sec' (fuel : Nat) (hf : 1 ≤ fuel) (s : Nat)
    (rest : Bytes) (acc : ProtoTimestamp) :
    decodeTsFields fuel (0x08 :: (varintEnc s ++ rest)) acc =
      decodeTsFields (fuel - 1) rest { acc with seconds := s } := by
  obtain ⟨k, rfl⟩ : ∃ k, fuel = k + 1 := ⟨fuel - 1, by omega⟩
  simpa using decodeTsFields_sec k s rest acc

theorem decodeTsFields_nanos (fuel v : Nat) (rest : Bytes)
    (acc : ProtoTimestamp) :
    decodeTsFields (fuel + 1) (0x10 :: (varintEnc v ++ rest)) acc =
      decodeTsFields fuel rest { acc with nanos := v % 0x100000000 } := by
  simp [decodeTsFields, varintDec, varintDec_enc]

theorem decodeTsFields_nanos' (fuel : Nat) (hf : 1 ≤ fuel) (v : Nat)
    (rest : Bytes) (acc : ProtoTimestamp) :
    decodeTsFields fuel (0x10 :: (varintEnc v ++ rest)) acc =
      decodeTsFields (fuel - 1) rest { acc with nanos := v % 0x100000000 } := by
  obtain ⟨k, rfl⟩ : ∃ k, fuel = k + 1 := ⟨fuel - 1, by omega⟩
  simpa using decodeTsFields_nanos k v rest acc

theorem signExt32_mod (n : Nat) (h : n < 0x100000000) :
    signExt32 n % 0x100000000 = n := by
  unfold signExt32
  split <;> omega

theorem decodeTsFields_sec_end (fuel s : Nat) (acc : ProtoTimestamp) :
    decodeTsFields (fuel + 1) (0x08 :: varintEnc s) acc =
      some { acc with seconds := s } := by
  have := decodeTsFields_sec fuel s [] acc
  simpa [decodeTsFields_nil] using this

theorem decodeTsFields_nanos_end (fuel v : Nat) (acc : ProtoTimestamp) :
    decodeTsFields (fuel + 1) (0x10 :: varintEnc v) acc =
      some { acc with nanos := v % 0x100000000 } := by
  have := decodeTsFields_nanos fuel v [] acc
  simpa [decodeTsFields_nil] using this

theorem decodeTsFields_nanos_end' (fuel : Nat) (hf : 1 ≤ fuel) (v : Nat)
    (acc : ProtoTimestamp) :
    decodeTsFields fuel (0x10 :: varintEnc v) acc =
      some { acc with nanos := v % 0x100000000 } := by
  obtain ⟨k, rfl⟩ : ∃ k, fuel = k + 1 := ⟨fuel - 1, by omega⟩
  exact decodeTsFields_nanos_end k v acc

theorem decodeTs_encodeTs (t : ProtoTimestamp) (h32 : t.nanos < 0x100000000) :
    decodeTs (encodeTs t) = some t := by
  obtain ⟨s, n⟩ := t
  simp only at h32
  by_cases hs : s = 0 <;> by_cases hn : n = 0
  · subst hs; subst hn
    simp [encodeTs, decodeTs, decodeTsFields_nil]
  · subst hs
    simp only [encodeTs]
    simp only [reduceIte, if_neg hn, List.nil_append]
    simp only [decodeTs, List.length_cons]
    rw [decodeTsFields_nanos_end, signExt32_mod n h32]
  · subst hn
    simp only [encodeTs]
    simp only [reduceIte, if_neg hs, List.append_nil]
    simp only [decodeTs, List.length_cons]
    rw [decodeTsFields_sec_end]
  · simp only [encodeTs, if_neg hs, if_neg hn, List.cons_append,
      List.append_nil]
    simp only [decodeTs, List.length_cons]
    rw [decodeTsFields_sec]
    rw [decodeTsFields_nanos_end' _
        (by simp only [List.length_append, List.length_cons]; omega),
      signExt32_mod n h32]

theorem decodeTxFields_nil (fuel : Nat) (acc : ProtoTx) :
    decodeTxFields fuel [] acc = some acc := by
  cases fuel <;> rfl

theorem decodeTxFields_code (fuel : Nat) (p rest : Bytes) (acc : ProtoTx) :
    decodeTxFields (fuel + 1) (0x0a :: (varintEnc p.length ++ (p ++ rest)))
      acc = decodeTxFields fuel rest { acc with code := p } := by
  simp [decodeTxFields, varintDec, varintDec_enc, List.take_left,
    List.drop_left]

theorem decodeTxFields_code' (fuel : Nat) (hf : 1 ≤ fuel) (p rest : Bytes)
    (acc : ProtoTx) :
    decodeTxFields fuel (0x0a :: (varintEnc p.length ++ (p ++ rest))) acc =
      decodeTxFields (fuel - 1) rest { acc with code := p } := by
  obtain ⟨k, rfl⟩ : ∃ k, fuel = k + 1 := ⟨fuel - 1, by omega⟩
  simpa using decodeTxFields_code k p rest acc

theorem decodeTxFields_data (fuel : Nat) (p rest : Bytes) (acc : ProtoTx) :
    decodeTxFields (fuel + 1) (0x12 :: (varintEnc p.length ++ (p ++ rest)))
      acc = decodeTxFields fuel rest { acc with data := some p } := by
  simp [decodeTxFields, varintDec, varintDec_enc, List.take_left,
    List.drop_left]

theorem decodeTxFields_data' (fuel : Nat) (hf : 1 ≤ fuel) (p rest : Bytes)
    (acc : ProtoTx) :
    decodeTxFields fuel (0x12 :: (varintEnc p.length ++ (p ++ rest))) acc =
      decodeTxFields (fuel - 1) rest { acc with data := some p } := by
  obtain ⟨k, rfl⟩ : ∃ k, fuel = k + 1 := ⟨fuel - 1, by omega⟩
  simpa using decodeTxFields_data k p rest acc

theorem decodeTxFields_ts (fuel : Nat) (tsb rest : Bytes) (acc : ProtoTx)
    (ts : ProtoTimestamp) (hts : decodeTs tsb = some ts) :
    decodeTxFields (fuel + 1) (0x1a :: (varintEnc tsb.length ++ (tsb ++ rest)))
      acc = decodeTxFields fuel rest { acc with timestamp := some ts } := by
  simp [decodeTxFields, varintDec, varintDec_enc, List.take_left,
    List.drop_left, hts]

theorem decodeTxFields_ts' (fuel : Nat) (hf : 1 ≤ fuel) (tsb rest : Bytes)
    (acc : ProtoTx) (ts : ProtoTimestamp) (hts : decodeTs tsb = some ts) :
    decodeTxFields fuel (0x1a :: (varintEnc tsb.length ++ (tsb ++ rest)))
      acc = decodeTxFields (fuel - 1) rest { acc with timestamp := some ts } := by
  obtain ⟨k, rfl⟩ : ∃ k, fuel = k + 1 := ⟨fuel - 1, by omega⟩
  simpa using decodeTxFields_ts k tsb rest acc ts hts

theorem decodeTxFields_code_end (fuel : Nat) (p : Bytes) (acc : ProtoTx) :
    decodeTxFields (fuel + 1) (0x0a :: (varintEnc p.length ++ p)) acc =
      some { acc with code := p } := by
  have := decodeTxFields_code fuel p [] acc
  simpa [decodeTxFields_nil] using this

theorem decodeTxFields_data_end (fuel : Nat) (p : Bytes) (acc : ProtoTx) :
    decodeTxFields (fuel + 1) (0x12 :: (varintEnc p.length ++ p)) acc =
      some { acc with data := some p } := by
  have := decodeTxFields_data fuel p [] acc
  simpa [decodeTxFields_nil] using this

theorem decodeTxFields_data_end' (fuel : Nat) (hf : 1 ≤ fuel) (p : Bytes)
    (acc : ProtoTx) :
    decodeTxFields fuel (0x12 :: (varintEnc p.length ++ p)) acc =
      some { acc with data := some p } := by
  obtain ⟨k, rfl⟩ : ∃ k, fuel = k + 1 := ⟨fuel - 1, by omega⟩
  exact decodeTxFields_data_end k p acc

theorem decodeTxFields_ts_end (fuel : Nat) (tsb : Bytes) (acc : ProtoTx)
    (ts : ProtoTimestamp) (hts : decodeTs tsb = some ts) :
    decodeTxFields (fuel + 1) (0x1a :: (varintEnc tsb.length ++ tsb)) acc =
      some { acc with timestamp := some ts } := by
  have := decodeTxFields_ts fuel tsb [] acc ts hts
  simpa [decodeTxFields_nil] using this

theorem decodeTxFields_ts_end' (fuel : Nat) (hf : 1 ≤ fuel) (tsb : Bytes)
    (acc : ProtoTx) (ts : ProtoTimestamp) (hts : decodeTs tsb = some ts) :
    decodeTxFields fuel (0x1a :: (varintEnc tsb.length ++ tsb)) acc =
      some { acc with timestamp := some ts } := by
  obtain ⟨k, rfl⟩ : ∃ k, fuel = k + 1 := ⟨fuel - 1, by omega⟩
  exact decodeTxFields_ts_end k tsb acc ts hts

theorem decodeProtoTx_encode (code : Bytes) (data : Option Bytes)
    (tso : Option ProtoTimestamp)
    (h32 : ∀ ts, tso = some ts → ts.nanos < 0x100000000) :
    decodeProtoTx (encodeProtoTx ⟨code, data, tso⟩) =
      some ⟨code, data, tso⟩ := by
  by_cases hc : code = [] <;> cases data <;> cases tso <;>
    simp only [encodeProtoTx, hc, reduceIte,
      List.nil_append, List.append_nil, List.cons_append, List.append_assoc]
  · exact decodeTxFields_nil 0 _
  case pos.none.some ts =>
    subst hc
    simp only [decodeProtoTx, List.length_cons]
    rw [decodeTxFields_ts_end _ _ _ ts (decodeTs_encodeTs ts (h32 ts rfl))]
  case pos.some.none d =>
    subst hc
    simp only [decodeProtoTx, List.length_cons]
    rw [decodeTxFields_data_end]
  case pos.some.some d ts =>
    subst hc
    simp only [decodeProtoTx, List.length_cons]
    rw [decodeTxFields_data]
    rw [decodeTxFields_ts_end' _
        (by simp only [List.length_append, List.length_cons]; omega)
        _ _ ts (decodeTs_encodeTs ts (h32 ts rfl))]
  case neg.none.none =>
    simp only [decodeProtoTx, List.length_cons]
    rw [decodeTxFields_code_end]
  case neg.none.some ts =>
    simp only [decodeProtoTx, List.length_cons]
    rw [decodeTxFields_code]
    rw [decodeTxFields_ts_end' _
        (by simp only [List.length_append, List.length_cons]; omega)
        _ _ ts (decodeTs_encodeTs ts (h32 ts rfl))]
  case neg.some.none d =>
    simp only [decodeProtoTx, List.length_cons]
    rw [decodeTxFields_code]
    rw [decodeTxFields_data_end' _
        (by simp only [List.length_append, List.length_cons]; omega)]
  case neg.some.some d ts =>
    simp only [decodeProtoTx, List.length_cons]
    rw [decodeTxFields_code]
    rw [decodeTxFields_data' _
        (by simp only [List.length_append, List.length_cons]; omega)]
    rw [decodeTxFields_ts_end' _
        (by simp only [List.length_append, List.length_cons]; omega)
        _ _ ts (decodeTs_encodeTs ts (h32 ts rfl))]

/-- The decoded transaction of `proto::types::Tx` (timestamp required). -/
structure Tx where
  code : Bytes
  data : Option Bytes
  timestamp : ProtoTimestamp
deriving DecidableEq

/-- The error variants of `proto::types::Error` reachable from `Tx`
decoding. -/
inductive PErr where
  | txDecodingError
  | noTimestampError
deriving DecidableEq

/-- Translated from `Tx::try_from`: decode the wire message; a missing
timestamp is `NoTimestampError`. -/
def Tx.tryFrom (bs : Bytes) : Except PErr Tx :=
  match decodeProtoTx bs with
  | none => .error .txDecodingError
  | some t =>
    match t.timestamp with
    | none => .error .noTimestampError
    | some ts => .ok ⟨t.code, t.data, ts⟩

/-- Translated from `Tx::to_bytes` (via `From<Tx> for types::Tx`): encode the
message with the timestamp present. -/
def Tx.toBytes (tx : Tx) : Bytes :=
  encodeProtoTx ⟨tx.code, tx.data, some tx.timestamp⟩

end Proto

/-! ## DB key comparator and prefix iteration
(`key_comparator`, `RocksDB::iter_prefix` and
`PersistentPrefixIterator::next` in
`apps/src/lib/node/ledger/storage/rocksdb.rs`)

Keys are modelled as their UTF-8 byte lists.  The DB enters the model as the
list of its entries in comparator order (the RocksDB iterator over a sorted
store); the bounded iteration of `iter_prefix` (seek to the prefix, upper
bound "prefix with last byte + 1") selects exactly the comparator interval. -/

namespace KC

/-- Splitting a byte string on `/` (Rust `str::split('/')`; empty pieces are
preserved, the result is always non-empty). -/
def splitSlash : List Nat → List (List Nat)
  | [] => [[]]
  | b :: rest =>
    match splitSlash rest with
    | [] => [[]]
    | s :: ss => if b = 47 then [] :: s :: ss else (b :: s) :: ss

/-- Parsing a `u64` from a decimal byte string (Rust `str::parse::<u64>`:
an optional leading `+`, at least one digit, value below `2^64`). -/
def parseU64 (s : List Nat) : Option Nat :=
  let digits := if s.headD 0 = 43 then s.tail else s
  if digits ≠ [] ∧ ∀ b ∈ digits, 48 ≤ b ∧ b ≤ 57 then
    let v := digits.foldl (fun acc b => acc * 10 + (b - 48)) 0
    if v < 0x10000000000000000 then some v else none
  else none

/-- Byte-wise lexicographic comparison (Rust `str`/`[u8]` `Ord`). -/
def bytesCmp : List Nat → List Nat → Ordering
  | [], [] => .eq
  | [], _ :: _ => .lt
  | _ :: _, [] => .gt
  | x :: xs, y :: ys =>
    if x < y then .lt else if y < x then .gt else bytesCmp xs ys

/-- Element-wise lexicographic comparison of segment vectors
(Rust `Vec<&str>` `Ord`). -/
def segsCmp : List (List Nat) → List (List Nat) → Ordering
  | [], [] => .eq
  | [], _ :: _ => .lt
  | _ :: _, [] => .gt
  | x :: xs, y :: ys =>
    match bytesCmp x y with
    | .eq => segsCmp xs ys
    | o => o

/-- Translated from `key_comparator`: split both keys on `/`; if both first
segments parse as `u64` heights, compare heights numerically and, when they
are equal, the remaining segment vectors; otherwise compare the plain
strings. -/
def keyComparator (a b : List Nat) : Ordering :=
  let av := splitSlash a
  let bv := splitSlash b
  match parseU64 (av.headD []), parseU64 (bv.headD []) with
  | some ah, some bh =>
    if ah = bh then segsCmp av.tail bv.tail else compare ah bh
  | _, _ => bytesCmp a b

/-- Decimal rendering of a natural number, as ASCII bytes. -/
def natDecimal (n : Nat) : List Nat :=
  if n = 0 then [48] else (Nat.digits 10 n).reverse.map (fun d => 48 + d)

/-- The ASCII bytes of `"subspace"`. -/
def subspaceSeg : List Nat := [115, 117, 98, 115, 112, 97, 99, 101]

/-- The DB prefix `"<height>/subspace/"` built by `iter_prefix`. -/
def dbPref (height : Nat) : List Nat :=
  natDecimal height ++ 47 :: (subspaceSeg ++ [47])

/-- Translated from `iter_prefix`: the upper bound is the prefix with its
last byte incremented. -/
def bumpLast : List Nat → List Nat
  | [] => []
  | [b] => [b + 1]
  | b :: rest => b :: bumpLast rest

/-- The entries selected by the bounded iteration of `iter_prefix`: the
comparator interval from `<height>/subspace/<prefix>` (inclusive) to its
last-byte bump (exclusive), in DB order. -/
def iterPrefEntries (db : List (List Nat × Bytes)) (height : Nat)
    (pref : List Nat) : List (List Nat × Bytes) :=
  db.filter (fun e =>
    keyComparator (dbPref height ++ pref) e.1 ≠ .gt ∧
      keyComparator e.1 (bumpLast (dbPref height ++ pref)) = .lt)

/-- Rust `str::strip_prefix`. -/
def stripPref : List Nat → List Nat → Option (List Nat)
  | [], s => some s
  | _ :: _, [] => none
  | a :: ps, b :: ss => if a = b then stripPref ps ss else none

/-- Translated from `PersistentPrefixIterator::next`, run to exhaustion: each
entry is stripped of the DB prefix (entries that do not carry it are
skipped), the value is returned as-is and the gas is the stripped key length
plus the value length. -/
def iterItems (dbPrefix : List Nat) (entries : List (List Nat × Bytes)) :
    List (List Nat × Bytes × Nat) :=
  entries.filterMap (fun e =>
    (stripPref dbPrefix e.1).map (fun k => (k, e.2, k.length + e.2.length)))

/-- The full run of `iter_prefix` followed by draining the iterator. -/
def iterPrefRun (db : List (List Nat × Bytes)) (height : Nat)
    (pref : List Nat) : List (List Nat × Bytes × Nat) :=
  iterItems (dbPref height) (iterPrefEntries db height pref)

/-- The rank of a byte in the order induced on strings by segment-wise
comparison: the separator `/` sorts below every other byte. -/
def rank (b : Nat) : Nat := if b = 47 then 0 else b + 1

/-- Byte-wise comparison under `rank`: this is the order that segment-wise
comparison of split strings induces on the strings themselves. -/
def modCmp : List Nat → List Nat → Ordering
  | [], [] => .eq
  | [], _ :: _ => .lt
  | _ :: _, [] => .gt
  | x :: xs, y :: ys =>
    if rank x < rank y then .lt
    else if rank y < rank x then .gt
    else modCmp xs ys

theorem splitSlash_ne_nil (s : List Nat) : splitSlash s ≠ [] := by
  cases s with
  | nil => simp [splitSlash]
  | cons b rest =>
    unfold splitSlash
    rcases splitSlash rest with _ | ⟨x, xs⟩
    · simp
    · by_cases hb : b = 47 <;> simp [hb]

theorem splitSlash_dest (t : List Nat) :
    ∃ s ss, splitSlash t = s :: ss := by
  rcases h : splitSlash t with _ | ⟨s, ss⟩
  · exact absurd h (splitSlash_ne_nil t)
  · exact ⟨s, ss, rfl⟩

theorem splitSlash_cons (b : Nat) (t s : List Nat) (ss : List (List Nat))
    (h : splitSlash t = s :: ss) :
    splitSlash (b :: t) = if b = 47 then [] :: s :: ss else (b :: s) :: ss := by
  conv_lhs => unfold splitSlash
  rw [h]

theorem splitSlash_append_slash (a t : List Nat) (ha : ∀ b ∈ a, b ≠ 47) :
    splitSlash (a ++ 47 :: t) = a :: splitSlash t := by
  induction a with
  | nil =>
    obtain ⟨s, ss, h⟩ := splitSlash_dest t
    simp only [List.nil_append, h]
    rw [splitSlash_cons 47 t s ss h]
    simp
  | cons b a ih =>
    have hb : b ≠ 47 := ha b (List.mem_cons_self b a)
    have ih2 := ih (fun q hq => ha q (List.mem_cons_of_mem b hq))
    simp only [List.cons_append]
    rw [splitSlash_cons b (a ++ 47 :: t) a (splitSlash t) ih2, if_neg hb]

theorem bytesCmp_refl (x : List Nat) : bytesCmp x x = .eq := by
  induction x with
  | nil => rfl
  | cons b x ih => simp [bytesCmp, ih]

theorem segsCmp_cons_same (s : List Nat) (xs ys : List (List Nat)) :
    segsCmp (s :: xs) (s :: ys) = segsCmp xs ys := by
  simp [segsCmp, bytesCmp_refl]

theorem rank_inj {a b : Nat} (h : rank a = rank b) : a = b := by
  unfold rank at h
  split at h <;> split at h <;> omega

theorem segsCmp_splitSlash (x : List Nat) :
    ∀ y, segsCmp (splitSlash x) (splitSlash y) = modCmp x y := by
  induction x with
  | nil =>
    intro y
    cases y with
    | nil => rfl
    | cons b ys =>
      obtain ⟨sy, ssy, hy⟩ := splitSlash_dest ys
      rw [splitSlash_cons b ys sy ssy hy]
      by_cases hb : b = 47 <;> simp [hb, splitSlash, segsCmp, bytesCmp, modCmp]
  | cons a xs ih =>
    intro y
    obtain ⟨sx, ssx, hx⟩ := splitSlash_dest xs
    cases y with
    | nil =>
      rw [splitSlash_cons a xs sx ssx hx]
      by_cases ha : a = 47 <;> simp [ha, splitSlash, segsCmp, bytesCmp, modCmp]
    | cons b ys =>
      obtain ⟨sy, ssy, hy⟩ := splitSlash_dest ys
      have ihy := ih ys
      rw [hx, hy] at ihy
      rw [splitSlash_cons a xs sx ssx hx, splitSlash_cons b ys sy ssy hy]
      by_cases ha : a = 47 <;> by_cases hb : b = 47
      · subst ha; subst hb
        simp only [reduceIte]
        rw [segsCmp_cons_same]
        rw [ihy]
        simp [modCmp, rank]
      · subst ha
        simp only [reduceIte, if_neg hb]
        simp only [segsCmp, bytesCmp]
        simp [modCmp, rank, hb]
      · subst hb
        simp only [reduceIte, if_neg ha]
        simp only [segsCmp, bytesCmp]
        simp [modCmp, rank, ha]
      · simp only [if_neg ha, if_neg hb]
        by_cases hab : a < b
        · simp only [segsCmp, bytesCmp, if_pos hab]
          have : rank a < rank b := by unfold rank; simp [ha, hb]; omega
          simp [modCmp, this]
        · by_cases hba : b < a
          · have hnab : ¬ a < b := hab
            simp only [segsCmp, bytesCmp, if_neg hnab, if_pos hba]
            have h1 : ¬ rank a < rank b := by unfold rank; simp [ha, hb]; omega
            have h2 : rank b < rank a := by unfold rank; simp [ha, hb]; omega
            simp [modCmp, h1, h2]
          · have hab2 : a = b := by omega
            subst hab2
            simp only [segsCmp, bytesCmp, if_neg hab, Nat.lt_irrefl]
            have h1 : ¬ rank a < rank a := Nat.lt_irrefl _
            simp only [modCmp, if_neg h1]
            rw [← ihy]
            simp [segsCmp]

theorem modCmp_nil_right (x : List Nat) (hx : x ≠ []) :
    modCmp x [] = .gt := by
  cases x with
  | nil => exact absurd rfl hx
  | cons b bs => rfl

/-- Membership in the bounded comparator interval of a bumped prefix forces
the prefix: any key between `p ++ [c]` (inclusive) and `p ++ [c+1]`
(exclusive) in the segment-induced order extends `p ++ [c]`. -/
theorem modCmp_interval (p : List Nat) :
    ∀ (k : List Nat) (c : Nat), c ≠ 47 →
      modCmp (p ++ [c]) k ≠ .gt → modCmp k (p ++ [c + 1]) = .lt →
      (p ++ [c]) <+: k := by
  induction p with
  | nil =>
    intro k c hc h1 h2
    cases k with
    | nil => exact absurd (modCmp_nil_right [c] (by simp)) h1
    | cons b ks =>
      simp only [List.nil_append] at h1 h2 ⊢
      have hblt : rank b < rank (c + 1) := by
        by_contra hno
        simp only [modCmp] at h2
        rw [if_neg hno] at h2
        split at h2
        · exact Ordering.noConfusion h2
        · cases ks with
          | nil => exact Ordering.noConfusion h2
          | cons q qs => exact Ordering.noConfusion h2
      have hble : ¬ rank b < rank c := by
        intro hbc
        simp only [modCmp] at h1
        rw [if_neg (by omega), if_pos hbc] at h1
        exact h1 rfl
      by_cases hc46 : c + 1 = 47
      · exfalso
        have : rank (c + 1) = 0 := by simp [rank, hc46]
        omega
      · have hrc : rank c = c + 1 := by simp [rank, hc]
        have hrc1 : rank (c + 1) = c + 2 := by simp [rank, hc46]
        have hb : b = c := rank_inj (by omega)
        exact ⟨ks, by simp [hb]⟩
  | cons a p ih =>
    intro k c hc h1 h2
    cases k with
    | nil =>
      exact absurd (modCmp_nil_right ((a :: p) ++ [c]) (by simp)) h1
    | cons b ks =>
      simp only [List.cons_append] at h1 h2 ⊢
      by_cases hab : rank a < rank b
      · exfalso
        simp only [modCmp] at h2
        rw [if_neg (by omega), if_pos hab] at h2
        exact Ordering.noConfusion h2
      · by_cases hba : rank b < rank a
        · exfalso
          simp only [modCmp] at h1
          rw [if_neg hab, if_pos hba] at h1
          exact h1 rfl
        · have hb : b = a := rank_inj (by omega)
          subst hb
          simp only [modCmp, Nat.lt_irrefl, if_neg (Nat.lt_irrefl _)] at h1 h2
          have := ih ks c hc h1 h2
          exact (List.cons_prefix_cons).mpr ⟨rfl, this⟩

theorem natDecimal_digits (n : Nat) :
    ∀ b ∈ natDecimal n, 48 ≤ b ∧ b ≤ 57 := by
  intro b hb
  unfold natDecimal at hb
  split at hb
  · simp at hb
    omega
  · simp only [List.mem_map, List.mem_reverse] at hb
    obtain ⟨d, hd, rfl⟩ := hb
    have := Nat.digits_lt_base (by norm_num) hd
    omega

theorem natDecimal_ne_nil (n : Nat) : natDecimal n ≠ [] := by
  unfold natDecimal
  split
  · simp
  · simp only [ne_eq, List.map_eq_nil_iff, List.reverse_eq_nil_iff]
    next h => exact Nat.digits_ne_nil_iff_ne_zero.mpr h

theorem foldl_decimal (ds : List Nat) :
    (ds.reverse.map (fun d => 48 + d)).foldl
      (fun acc b => acc * 10 + (b - 48)) 0 = Nat.ofDigits 10 ds := by
  induction ds with
  | nil => rfl
  | cons d ds ih =>
    simp only [List.reverse_cons, List.map_append, List.foldl_append,
      List.map_cons, List.map_nil, List.foldl_cons, List.foldl_nil, ih]
    rw [Nat.ofDigits_cons]
    omega

theorem parseU64_natDecimal (n : Nat) (hn : n < 0x10000000000000000) :
    parseU64 (natDecimal n) = some n := by
  unfold parseU64
  have hd : (natDecimal n).headD 0 ≠ 43 := by
    obtain ⟨b, bs, hb⟩ : ∃ b bs, natDecimal n = b :: bs := by
      rcases h : natDecimal n with _ | ⟨b, bs⟩
      · exact absurd h (natDecimal_ne_nil n)
      · exact ⟨b, bs, rfl⟩
    have := natDecimal_digits n b (by rw [hb]; exact List.mem_cons_self b bs)
    rw [hb]
    simp
    omega
  rw [if_neg hd]
  rw [if_pos ⟨natDecimal_ne_nil n, natDecimal_digits n⟩]
  by_cases h0 : n = 0
  · subst h0
    simp [natDecimal]
  · have hval : (natDecimal n).foldl (fun acc b => acc * 10 + (b - 48)) 0
        = n := by
      unfold natDecimal
      rw [if_neg h0, foldl_decimal, Nat.ofDigits_digits]
    rw [hval, if_pos hn]

theorem noSlash_natDecimal (n : Nat) : ∀ b ∈ natDecimal n, b ≠ 47 := by
  intro b hb
  have := natDecimal_digits n b hb
  omega

theorem splitSlash_dbPref (h : Nat) (z : List Nat) :
    splitSlash (dbPref h ++ z) =
      natDecimal h :: subspaceSeg :: splitSlash z := by
  have hshape : dbPref h ++ z =
      natDecimal h ++ 47 :: (subspaceSeg ++ 47 :: z) := by
    simp [dbPref]
  rw [hshape, splitSlash_append_slash _ _ (noSlash_natDecimal h),
    splitSlash_append_slash _ _ (by decide)]

/-- The comparator on two keys below the same `<height>/subspace/` DB prefix
is the segment-induced byte order of the suffixes. -/
theorem keyComparator_dbPref (h : Nat) (hh : h < 0x10000000000000000)
    (x y : List Nat) :
    keyComparator (dbPref h ++ x) (dbPref h ++ y) = modCmp x y := by
  unfold keyComparator
  rw [splitSlash_dbPref h x, splitSlash_dbPref h y]
  simp only [List.headD_cons, List.tail_cons]
  rw [parseU64_natDecimal h hh]
  simp only [reduceIte, if_pos rfl]
  rw [segsCmp_cons_same]
  exact segsCmp_splitSlash x y

theorem stripPref_some {p s k : List Nat} (h : stripPref p s = some k) :
    s = p ++ k := by
  induction p generalizing s with
  | nil =>
    simp only [stripPref, Option.some.injEq] at h
    simp [h]
  | cons a ps ih =>
    cases s with
    | nil => exact Option.noConfusion h
    | cons b ss =>
      simp only [stripPref] at h
      split at h
      · next heq => rw [List.cons_append, ← heq, ih h]
      · exact Option.noConfusion h

theorem stripPref_append (p k : List Nat) : stripPref p (p ++ k) = some k := by
  induction p with
  | nil => rfl
  | cons a ps ih => simp [stripPref, ih]

theorem bumpLast_concat (p : List Nat) (c : Nat) :
    bumpLast (p ++ [c]) = p ++ [c + 1] := by
  induction p with
  | nil => rfl
  | cons a p ih =>
    cases p with
    | nil => rfl
    | cons b p2 =>
      simp only [List.cons_append, bumpLast]
      exact congrArg (List.cons a) ih

theorem pairwise_filterMap_of {α β : Type} {R : α → α → Prop}
    {S : β → β → Prop} (f : α → Option β) {l : List α} (h : l.Pairwise R)
    (hf : ∀ a b a2 b2, f a = some a2 → f b = some b2 → R a b → S a2 b2) :
    (l.filterMap f).Pairwise S := by
  induction l with
  | nil => simp
  | cons x l ih =>
    rcases h with _ | ⟨hx, hl⟩
    cases hfx : f x with
    | none =>
      simpa [List.filterMap_cons, hfx] using ih hl
    | some y =>
      simp only [List.filterMap_cons, hfx]
      refine List.Pairwise.cons ?_ (ih hl)
      intro b hb
      obtain ⟨a, ha, hfa⟩ := List.mem_filterMap.mp hb
      exact hf x a y b hfx hfa (hx a ha)

end KC

/-! ## Bech32m address codec
(`Address::encode` / `Address::decode` in `shared/src/types/address.rs`)

The `bech32` crate (v0.8, an external dependency) and the Borsh codec of the
`Address` enum are modelled byte-for-byte; strings are lists of Unicode code
points (accepted inputs are ASCII). -/

namespace B32

/-- The checksum variants of the `bech32` crate. -/
inductive Variant where
  | bech32
  | bech32m
deriving DecidableEq

/-- The error cases of the `bech32` crate reachable from address decoding. -/
inductive B32Err where
  | missingSeparator
  | invalidChar
  | invalidLength
  | mixedCase
  | invalidChecksum
  | invalidData
  | invalidPadding
deriving DecidableEq

/-- Case sensitivity state while scanning a Bech32 string. -/
inductive CaseT where
  | upper
  | lower
  | caseNone
deriving DecidableEq

/-- The Bech32 data alphabet, by 5-bit value. -/
def CHARSET : List Nat :=
  [113, 112, 122, 114, 121, 57, 120, 56, 103, 102, 50, 116, 118, 100, 119,
   48, 115, 51, 106, 110, 53, 52, 107, 104, 99, 101, 54, 109, 117, 97, 55,
   108]

/-- ASCII lower-casing of a code point. -/
def toLowerByte (c : Nat) : Nat := if 65 ≤ c ∧ c ≤ 90 then c + 32 else c

/-- Index of a value in a list (first match). -/
def revLookup (c : Nat) : List Nat → Option Nat
  | [] => none
  | q :: qs => if q = c then some 0 else (revLookup c qs).map (fun i => i + 1)

/-- The reverse alphabet lookup (the crate's `CHARSET_REV` table maps both
cases). -/
def charsetRev (c : Nat) : Option Nat := revLookup (toLowerByte c) CHARSET

/-- The character of a 5-bit value. -/
def charsetChar (v : Nat) : Nat := CHARSET.getD v 0

/-- Split at the last separator `1` (code 49): the crate's `rfind(SEP)`. -/
def splitLast1 : List Nat → Option (List Nat × List Nat)
  | [] => none
  | b :: rest =>
    match splitLast1 rest with
    | some (h, d) => some (b :: h, d)
    | none => if b = 49 then some ([], rest) else none

/-- Translated from the crate's `check_hrp`: the human-readable part must be
non-empty, at most 83 characters, within ASCII 33..=126, and not mixed-case;
its case is returned. -/
def checkHrp (hrp : List Nat) : Except B32Err CaseT :=
  if hrp = [] ∨ 83 < hrp.length then .error .invalidLength
  else if ¬ hrp.all (fun b => 33 ≤ b ∧ b ≤ 126) then .error .invalidChar
  else
    let hasLower := hrp.any (fun b => 97 ≤ b ∧ b ≤ 122)
    let hasUpper := hrp.any (fun b => 65 ≤ b ∧ b ≤ 90)
    if hasLower ∧ hasUpper then .error .mixedCase
    else if hasUpper then .ok .upper
    else if hasLower then .ok .lower
    else .ok .caseNone

/-- Translated from the data-part scan of the crate's `split_and_decode`:
each character must be ASCII, must not flip the case seen so far, and maps
through the reverse alphabet to its 5-bit value. -/
def decodeDataChars : CaseT → List Nat → Except B32Err (List Nat)
  | _, [] => .ok []
  | cs, c :: rest =>
    if 127 < c then .error .invalidChar
    else if (97 ≤ c ∧ c ≤ 122) ∧ cs = .upper then .error .mixedCase
    else if (65 ≤ c ∧ c ≤ 90) ∧ cs = .lower then .error .mixedCase
    else
      let cs2 : CaseT :=
        if 97 ≤ c ∧ c ≤ 122 then .lower
        else if 65 ≤ c ∧ c ≤ 90 then .upper
        else cs
      match charsetRev c with
      | none => .error .invalidChar
      | some v =>
        match decodeDataChars cs2 rest with
        | .ok vs => .ok (v :: vs)
        | .error e => .error e

/-- The BCH generator constants of Bech32. -/
def polymodStep (chk v : Nat) : Nat :=
  let b := chk >>> 25
  (((chk &&& 0x1ffffff) <<< 5) ^^^ v) ^^^
    (if b.testBit 0 then 0x3b6a57b2 else 0) ^^^
    (if b.testBit 1 then 0x26508e6d else 0) ^^^
    (if b.testBit 2 then 0x1ea119fa else 0) ^^^
    (if b.testBit 3 then 0x3d4233dd else 0) ^^^
    (if b.testBit 4 then 0x2a1462b3 else 0)

/-- The Bech32 checksum polynomial over a value sequence. -/
def polymod (vs : List Nat) : Nat := vs.foldl polymodStep 1

/-- The checksum expansion of the human-readable part. -/
def hrpExpand (hrp : List Nat) : List Nat :=
  hrp.map (fun b => b >>> 5) ++ [0] ++ hrp.map (fun b => b &&& 31)

/-- Checksum verification, detecting the variant by the final constant. -/
def verifyChecksum (hrp data : List Nat) : Option Variant :=
  let pm := polymod (hrpExpand hrp ++ data)
  if pm = 1 then some .bech32
  else if pm = 0x2bc830a3 then some .bech32m
  else none

/-- Checksum creation for the given variant. -/
def createChecksum (hrp data : List Nat) (variant : Variant) : List Nat :=
  let c : Nat :=
    match variant with
    | .bech32 => 1
    | .bech32m => 0x2bc830a3
  let pm := polymod (hrpExpand hrp ++ data ++ [0, 0, 0, 0, 0, 0]) ^^^ c
  [pm >>> 25 &&& 31, pm >>> 20 &&& 31, pm >>> 15 &&& 31, pm >>> 10 &&& 31,
   pm >>> 5 &&& 31, pm &&& 31]

/-- Translated from the crate's `decode`: split at the last `1`, check and
lower-case the human-readable part, decode the data characters, require at
least the six checksum characters, verify the checksum and truncate it. -/
def bech32Decode (s : List Nat) :
    Except B32Err (List Nat × List Nat × Variant) :=
  match splitLast1 s with
  | none => .error .missingSeparator
  | some (rawHrp, rawData) =>
    match checkHrp rawHrp with
    | .error e => .error e
    | .ok cs =>
      match decodeDataChars cs rawData with
      | .error e => .error e
      | .ok data =>
        if data.length < 6 then .error .invalidLength
        else
          match verifyChecksum (rawHrp.map toLowerByte) data with
          | some v =>
            .ok (rawHrp.map toLowerByte, data.take (data.length - 6), v)
          | none => .error .invalidChecksum

/-- The inner emit loop of the crate's `convert_bits`: while at least `t`
bits are pending, emit the top `t` of them (the fuel starts at the pending
bit count, which bounds the iterations). -/
def emitLoop (t maxv acc : Nat) : Nat → Nat → List Nat × Nat
  | 0, bits => ([], bits)
  | fuel + 1, bits =>
    if t ≤ bits then
      let bits2 := bits - t
      let piece := (acc >>> bits2) &&& maxv
      let (ps, b3) := emitLoop t maxv acc fuel bits2
      (piece :: ps, b3)
    else ([], bits)

/-- The main loop of the crate's `convert_bits`, returning the emitted
pieces and the final accumulator state. -/
def cbRun (f t maxv : Nat) :
    List Nat → Nat → Nat → Except B32Err (List Nat × Nat × Nat)
  | [], acc, bits => .ok ([], acc, bits)
  | v :: rest, acc, bits =>
    if v >>> f = 0 then
      let acc2 := (acc <<< f) ||| v
      let bits2 := bits + f
      let (pieces, bits3) := emitLoop t maxv acc2 bits2 bits2
      match cbRun f t maxv rest acc2 bits3 with
      | .ok (out, accF, bitsF) => .ok (pieces ++ out, accF, bitsF)
      | .error e => .error e
    else .error .invalidData

/-- Translated from the crate's `convert_bits`: regroup `f`-bit values into
`t`-bit values; with padding the leftover bits are zero-extended into one
more piece, without padding the leftover must be shorter than `f` bits and
zero. -/
def convertBits (f t : Nat) (pad : Bool) (data : List Nat) :
    Except B32Err (List Nat) :=
  let maxv := (1 <<< t) - 1
  match cbRun f t maxv data 0 0 with
  | .error e => .error e
  | .ok (out, acc, bits) =>
    if pad then
      if 0 < bits then .ok (out ++ [(acc <<< (t - bits)) &&& maxv])
      else .ok out
    else if f ≤ bits ∨ ((acc <<< (t - bits)) &&& maxv) ≠ 0 then
      .error .invalidPadding
    else .ok out

/-- A continuation byte of UTF-8. -/
def contB (b : Nat) : Bool := decide (128 ≤ b ∧ b ≤ 191)

/-- UTF-8 validity of a byte string (`String::from_utf8` inside the Borsh
`String` deserializer). -/
def validUtf8 : List Nat → Bool
  | [] => true
  | b :: rest =>
    if b ≤ 0x7F then validUtf8 rest
    else if 0xC2 ≤ b ∧ b ≤ 0xDF then
      match rest with
      | c1 :: r => contB c1 && validUtf8 r
      | [] => false
    else if b = 0xE0 then
      match rest with
      | c1 :: c2 :: r =>
        decide (0xA0 ≤ c1 ∧ c1 ≤ 0xBF) && contB c2 && validUtf8 r
      | _ => false
    else if (0xE1 ≤ b ∧ b ≤ 0xEC) ∨ b = 0xEE ∨ b = 0xEF then
      match rest with
      | c1 :: c2 :: r => contB c1 && contB c2 && validUtf8 r
      | _ => false
    else if b = 0xED then
      match rest with
      | c1 :: c2 :: r =>
        decide (0x80 ≤ c1 ∧ c1 ≤ 0x9F) && contB c2 && validUtf8 r
      | _ => false
    else if b = 0xF0 then
      match rest with
      | c1 :: c2 :: c3 :: r =>
        decide (0x90 ≤ c1 ∧ c1 ≤ 0xBF) && contB c2 && contB c3 && validUtf8 r
      | _ => false
    else if 0xF1 ≤ b ∧ b ≤ 0xF3 then
      match rest with
      | c1 :: c2 :: c3 :: r =>
        contB c1 && contB c2 && contB c3 && validUtf8 r
      | _ => false
    else if b = 0xF4 then
      match rest with
      | c1 :: c2 :: c3 :: r =>
        decide (0x80 ≤ c1 ∧ c1 ≤ 0x8F) && contB c2 && contB c3 && validUtf8 r
      | _ => false
    else false

/-- The Borsh `String` deserializer: a little-endian `u32` length, that many
UTF-8 bytes, and (for `try_from_slice`) nothing left over. -/
def parseBorshString (bs : Bytes) : Option Bytes :=
  match bs with
  | l0 :: l1 :: l2 :: l3 :: rest =>
    if rest.length = l0 + 0x100 * l1 + 0x10000 * l2 + 0x1000000 * l3 ∧
        validUtf8 rest then
      some rest
    else none
  | _ => none

/-- The Borsh deserializer of the `Address` enum: a variant tag, then the
fields (`Established { hash: String }`, or
`Implicit(ImplicitAddress::Ed25519(PublicKeyHash(String)))`). -/
def borshDecodeAddress (bs : Bytes) : Option Addr.Address :=
  match bs with
  | 0 :: rest => (parseBorshString rest).map Addr.Address.established
  | 1 :: 0 :: rest => (parseBorshString rest).map Addr.Address.implicitEd25519
  | _ => none

/-- The Borsh serializer of the `Address` enum. -/
def borshEncodeAddress : Addr.Address → Bytes
  | .established h => 0 :: (Addr.u32LE h.length ++ h)
  | .implicitEd25519 p => 1 :: 0 :: (Addr.u32LE p.length ++ p)

/-- The error variants of `address::Error` (`shared/src/types/address.rs`),
with the Borsh/UTF-8 failures folded into `invalidAddressEncoding` as in the
source. -/
inductive DErr where
  | decodeBech32 (e : B32Err)
  | decodeBase32 (e : B32Err)
  | unexpectedBech32Prefix (hrp : List Nat)
  | unexpectedBech32Variant (v : Variant)
  | invalidAddressEncoding
  | unexpectedHashLength (n : Nat)
deriving DecidableEq

/-- Translated from `Address::decode`: Bech32 decode, require the
human-readable part `"a"` and the `Bech32m` variant, regroup the 5-bit data
into bytes, Borsh-decode the address, and require hash length 40. -/
def addrDecode (s : List Nat) : Except DErr Addr.Address :=
  match bech32Decode s with
  | .error e => .error (.decodeBech32 e)
  | .ok (hrp, data, variant) =>
    if hrp ≠ [97] then .error (.unexpectedBech32Prefix hrp)
    else
      match variant with
      | .bech32m =>
        match convertBits 5 8 false data with
        | .error e => .error (.decodeBase32 e)
        | .ok bytes =>
          match borshDecodeAddress bytes with
          | none => .error .invalidAddressEncoding
          | some addr =>
            match addr with
            | .established h =>
              if h.length ≠ 40 then .error (.unexpectedHashLength h.length)
              else .ok addr
            | .implicitEd25519 p =>
              if p.length ≠ 40 then .error (.unexpectedHashLength p.length)
              else .ok addr
      | v => .error (.unexpectedBech32Variant v)

/-- Translated from `Address::encode`: Borsh-encode, regroup into 5-bit
values, and emit `"a"`, the separator `1`, the data characters and the
Bech32m checksum (the base-32 conversion of bytes cannot fail). -/
def addrEncode (a : Addr.Address) : List Nat :=
  match convertBits 8 5 true (borshEncodeAddress a) with
  | .ok ws => 97 :: 49 :: (ws ++ createChecksum [97] ws .bech32m).map charsetChar
  | .error _ => []

/-! Bit-level helper lemmas for the base-32 conversion and the checksum. -/

theorem shiftRight_xor_distrib (x y n : Nat) :
    (x ^^^ y) >>> n = (x >>> n) ^^^ (y >>> n) :=
  Nat.eq_of_testBit_eq fun i => by
    simp [Nat.testBit_shiftRight, Nat.testBit_xor]

theorem shiftLeft_xor_distrib (x y n : Nat) :
    (x ^^^ y) <<< n = (x <<< n) ^^^ (y <<< n) :=
  Nat.eq_of_testBit_eq fun i => by
    simp [Nat.testBit_shiftLeft, Nat.testBit_xor, Bool.and_xor_distrib_left]

theorem shiftRight_zero_of_lt {x k : Nat} (h : x < 2 ^ k) : x >>> k = 0 := by
  rw [Nat.shiftRight_eq_div_pow]
  exact Nat.div_eq_of_lt h

theorem shiftLeft_shiftRight_sub (a s k : Nat) (h : k ≤ s) :
    (a <<< s) >>> k = a <<< (s - k) := by
  rw [Nat.shiftLeft_eq, Nat.shiftLeft_eq, Nat.shiftRight_eq_div_pow]
  rw [show s = (s - k) + k from by omega, pow_add, ← Nat.mul_assoc]
  rw [Nat.mul_div_cancel _ (Nat.pos_pow_of_pos k (by norm_num))]
  rw [Nat.add_sub_cancel]

theorem and_31_eq_mod (x : Nat) : x &&& 31 = x % 32 := by
  have := Nat.and_pow_two_sub_one_eq_mod x 5
  norm_num at this
  exact this

theorem shiftLeft_and_31 (a s : Nat) (h : 5 ≤ s) : (a <<< s) &&& 31 = 0 := by
  rw [and_31_eq_mod, Nat.shiftLeft_eq]
  rw [show s = 5 + (s - 5) from by omega, pow_add]
  show a * (32 * 2 ^ (s - 5)) % 32 = 0
  rw [← Nat.mul_assoc, Nat.mul_comm a 32, Nat.mul_assoc]
  exact Nat.mul_mod_right 32 _

theorem shiftLeft_lt_two_pow {a : Nat} (w s : Nat) (h : a < 2 ^ w) :
    a <<< s < 2 ^ (w + s) := by
  rw [Nat.shiftLeft_eq, pow_add]
  exact Nat.mul_lt_mul_of_lt_of_le h (Nat.le_refl _) (Nat.pos_pow_of_pos s
    (by norm_num))

/-! Bit streams: `natBits w v` is the list of the low `w` bits of `v`,
most-significant first, giving meaning to the `convert_bits` state. -/

def natBits : Nat → Nat → List Bool
  | 0, _ => []
  | w + 1, v => v.testBit w :: natBits w v

theorem length_natBits (w v : Nat) : (natBits w v).length = w := by
  induction w generalizing v with
  | zero => rfl
  | succ w ih => simp [natBits, ih]

theorem natBits_congr (w : Nat) {v u : Nat}
    (h : ∀ i, i < w → v.testBit i = u.testBit i) :
    natBits w v = natBits w u := by
  induction w with
  | zero => rfl
  | succ w ih =>
    simp only [natBits]
    rw [h w (Nat.lt_succ_self w), ih (fun i hi => h i (Nat.lt_succ_of_lt hi))]

theorem natBits_testBit_eq {w v u : Nat} (h : natBits w v = natBits w u) :
    ∀ i, i < w → v.testBit i = u.testBit i := by
  induction w with
  | zero => intro i hi; omega
  | succ w ih =>
    simp only [natBits, List.cons.injEq] at h
    intro i hi
    rcases Nat.lt_succ_iff_lt_or_eq.mp hi with hlt | rfl
    · exact ih h.2 i hlt
    · exact h.1

theorem natBits_inj {w v u : Nat} (hv : v < 2 ^ w) (hu : u < 2 ^ w)
    (h : natBits w v = natBits w u) : v = u := by
  refine Nat.eq_of_testBit_eq fun i => ?_
  by_cases hi : i < w
  · exact natBits_testBit_eq h i hi
  · rw [Nat.testBit_lt_two_pow (lt_of_lt_of_le hv
        (Nat.pow_le_pow_right (by norm_num) (by omega))),
      Nat.testBit_lt_two_pow (lt_of_lt_of_le hu
        (Nat.pow_le_pow_right (by norm_num) (by omega)))]

theorem natBits_mod (w v m : Nat) (h : w ≤ m) :
    natBits w (v % 2 ^ m) = natBits w v :=
  natBits_congr w fun i hi => by
    rw [Nat.testBit_mod_two_pow]
    simp [show i < m from by omega]

theorem natBits_shift_or (b f x v : Nat) (hv : v < 2 ^ f) :
    natBits (b + f) ((x <<< f) ||| v) = natBits b x ++ natBits f v := by
  induction b with
  | zero =>
    simp only [Nat.zero_add, natBits, List.nil_append]
    refine natBits_congr f fun i hi => ?_
    rw [Nat.testBit_or, Nat.testBit_shiftLeft]
    simp [show ¬ f ≤ i from by omega]
  | succ b ih =>
    rw [show b + 1 + f = (b + f) + 1 from by omega]
    simp only [natBits]
    rw [ih]
    simp only [List.cons_append, natBits]
    congr 1
    have hvb : v.testBit (b + f) = false :=
      Nat.testBit_lt_two_pow (lt_of_lt_of_le hv
        (Nat.pow_le_pow_right (by norm_num) (Nat.le_add_left f b)))
    rw [Nat.testBit_or, Nat.testBit_shiftLeft, hvb]
    simp [show f ≤ b + f from Nat.le_add_left f b]

theorem natBits_shift_xor (b f x v : Nat) (hv : v < 2 ^ f) :
    natBits (b + f) ((x <<< f) ^^^ v) = natBits b x ++ natBits f v := by
  rw [← natBits_shift_or b f x v hv]
  refine natBits_congr _ fun i hi => ?_
  rw [Nat.testBit_xor, Nat.testBit_or, Nat.testBit_shiftLeft]
  by_cases hfi : f ≤ i
  · simp [hfi, Nat.testBit_lt_two_pow (lt_of_lt_of_le hv
      (Nat.pow_le_pow_right (by norm_num) hfi))]
  · simp [hfi]

theorem natBits_split (u w acc : Nat) :
    natBits (u + w) acc = natBits u (acc >>> w) ++ natBits w acc := by
  induction u with
  | zero => simp [natBits]
  | succ u ih =>
    rw [show u + 1 + w = (u + w) + 1 from by omega]
    simp only [natBits]
    rw [ih]
    simp only [List.cons_append]
    congr 1
    rw [Nat.testBit_shiftRight, Nat.add_comm w u]

theorem natBits_zero (w : Nat) : natBits w 0 = List.replicate w false := by
  induction w with
  | zero => rfl
  | succ w ih => simp [natBits, List.replicate_succ, ih]

theorem natBits_zero_iff (w acc : Nat) :
    natBits w acc = List.replicate w false ↔ acc % 2 ^ w = 0 := by
  constructor
  · intro h
    rw [← natBits_zero w] at h
    refine Nat.eq_of_testBit_eq fun i => ?_
    rw [Nat.testBit_mod_two_pow, Nat.zero_testBit]
    by_cases hi : i < w
    · simp [hi, natBits_testBit_eq h i hi]
    · simp [hi]
  · intro h
    rw [← natBits_mod w acc w (Nat.le_refl w), h, natBits_zero]

theorem shiftLeft_shiftRight_ge (a s k : Nat) (h : s ≤ k) :
    (a <<< s) >>> k = a >>> (k - s) := by
  rw [Nat.shiftLeft_eq, Nat.shiftRight_eq_div_pow, Nat.shiftRight_eq_div_pow]
  rw [show (2:Nat) ^ k = 2 ^ (k - s) * 2 ^ s from by
    rw [← pow_add]; congr 1; omega]
  exact Nat.mul_div_mul_right _ _ (Nat.pos_pow_of_pos s (by norm_num))

theorem and_maxv (t x : Nat) : x &&& ((1 <<< t) - 1) = x % 2 ^ t := by
  rw [Nat.shiftLeft_eq, one_mul, Nat.and_pow_two_sub_one_eq_mod]

theorem emitLoop_spec (t acc : Nat) (ht : 0 < t) :
    ∀ fuel bits, bits ≤ fuel →
    ∃ ps, emitLoop t ((1 <<< t) - 1) acc fuel bits = (ps, bits % t) ∧
      natBits bits acc = ps.flatMap (natBits t) ++ natBits (bits % t) acc ∧
      ∀ p ∈ ps, p < 2 ^ t := by
  intro fuel
  induction fuel with
  | zero =>
    intro bits hb
    have hb0 : bits = 0 := by omega
    subst hb0
    exact ⟨[], rfl, by simp [natBits], by simp⟩
  | succ fuel ih =>
    intro bits hb
    by_cases hle : t ≤ bits
    · obtain ⟨ps, hrun, heq, hlt⟩ := ih (bits - t) (by omega)
      refine ⟨((acc >>> (bits - t)) &&& ((1 <<< t) - 1)) :: ps, ?_, ?_, ?_⟩
      · simp only [emitLoop, if_pos hle, hrun]
        rw [← Nat.mod_eq_sub_mod hle]
      · have hsplit := natBits_split t (bits - t) acc
        rw [show t + (bits - t) = bits from by omega] at hsplit
        rw [hsplit, heq]
        rw [← Nat.mod_eq_sub_mod hle]
        rw [List.flatMap_cons, List.append_assoc]
        congr 1
        rw [and_maxv, natBits_mod t _ t (Nat.le_refl t)]
      · intro p hp
        rcases hp with _ | hp
        · rw [and_maxv]; exact Nat.mod_lt _ (Nat.pos_pow_of_pos t (by norm_num))
        · exact hlt p (by assumption)
    · have hmod : bits % t = bits := Nat.mod_eq_of_lt (by omega)
      refine ⟨[], ?_, ?_, by simp⟩
      · simp only [emitLoop, if_neg hle]
        rw [hmod]
      · rw [hmod]; simp

theorem cbRun_spec (f t : Nat) (ht : 0 < t) :
    ∀ (vs : List Nat) (acc bits : Nat), bits < t →
    (∀ v ∈ vs, v < 2 ^ f) →
    ∃ out accF bitsF,
      cbRun f t ((1 <<< t) - 1) vs acc bits = .ok (out, accF, bitsF) ∧
      natBits bits acc ++ vs.flatMap (natBits f) =
        out.flatMap (natBits t) ++ natBits bitsF accF ∧
      bitsF < t ∧ bitsF = (bits + f * vs.length) % t ∧
      ∀ p ∈ out, p < 2 ^ t := by
  intro vs
  induction vs with
  | nil =>
    intro acc bits hbt _
    exact ⟨[], acc, bits, rfl, by simp, hbt, by simp [Nat.mod_eq_of_lt hbt],
      by simp⟩
  | cons v vs ih =>
    intro acc bits hbt hv
    have hvf : v < 2 ^ f := hv v (List.mem_cons_self v vs)
    have hvr : v >>> f = 0 := shiftRight_zero_of_lt hvf
    obtain ⟨ps, hrun, heq1, hps⟩ :=
      emitLoop_spec t ((acc <<< f) ||| v) ht (bits + f) (bits + f)
        (Nat.le_refl _)
    obtain ⟨out, accF, bitsF, hrec, heq2, hbf, hbfv, hout⟩ :=
      ih ((acc <<< f) ||| v) ((bits + f) % t)
        (Nat.mod_lt _ ht) (fun x hx => hv x (List.mem_cons_of_mem v hx))
    refine ⟨ps ++ out, accF, bitsF, ?_, ?_, hbf, ?_, ?_⟩
    · simp only [cbRun, if_pos hvr, hrun, hrec]
    · have hshift := natBits_shift_or bits f acc v hvf
      rw [List.flatMap_cons, ← List.append_assoc, ← hshift, heq1,
        List.append_assoc, heq2, List.flatMap_append, List.append_assoc]
    · rw [hbfv, Nat.mod_add_mod, List.length_cons]
      congr 1
      ring
    · intro p hp
      rcases List.mem_append.mp hp with h | h
      · exact hps p h
      · exact hout p h

theorem cbRun_ok_lt (f t maxv : Nat) :
    ∀ (vs : List Nat) (acc bits : Nat) (r : List Nat × Nat × Nat),
    cbRun f t maxv vs acc bits = .ok r → ∀ v ∈ vs, v < 2 ^ f := by
  intro vs
  induction vs with
  | nil => intro _ _ _ _ v hv; cases hv
  | cons v vs ih =>
    intro acc bits r hr w hw
    by_cases hvr : v >>> f = 0
    · rcases List.mem_cons.mp hw with rfl | hw2
      · have h2 : w / 2 ^ f = 0 := by
          rw [← Nat.shiftRight_eq_div_pow]; exact hvr
        have hp : 0 < 2 ^ f := Nat.pos_pow_of_pos f (by norm_num)
        rcases Nat.lt_or_ge w (2 ^ f) with h | h
        · exact h
        · have h1 : 1 ≤ w / 2 ^ f := (Nat.le_div_iff_mul_le hp).mpr (by omega)
          omega
      · simp only [cbRun, if_pos hvr] at hr
        cases hcb : cbRun f t maxv vs ((acc <<< f) ||| v)
            ((emitLoop t maxv ((acc <<< f) ||| v) (bits + f) (bits + f)).2)
          with
        | ok r2 => exact ih _ _ _ hcb w hw2
        | error e => rw [hcb] at hr; exact absurd hr (by simp)
    · simp only [cbRun, if_neg hvr] at hr
      exact absurd hr (by simp)

theorem length_flatMap_natBits (w : Nat) (l : List Nat) :
    (l.flatMap (natBits w)).length = w * l.length := by
  induction l with
  | nil => simp
  | cons x l ih =>
    rw [List.flatMap_cons, List.length_append, length_natBits, ih,
      List.length_cons]
    ring

theorem flatMap_natBits_inj (w : Nat) (hw : 0 < w) :
    ∀ (xs ys : List Nat), (∀ x ∈ xs, x < 2 ^ w) → (∀ y ∈ ys, y < 2 ^ w) →
    xs.flatMap (natBits w) = ys.flatMap (natBits w) → xs = ys := by
  intro xs
  induction xs with
  | nil =>
    intro ys _ _ h
    cases ys with
    | nil => rfl
    | cons y ys =>
      have := congrArg List.length h
      rw [length_flatMap_natBits, length_flatMap_natBits] at this
      simp at this
      omega
  | cons x xs ih =>
    intro ys hx hy h
    cases ys with
    | nil =>
      have := congrArg List.length h
      rw [length_flatMap_natBits, length_flatMap_natBits] at this
      simp at this
      omega
    | cons y ys =>
      rw [List.flatMap_cons, List.flatMap_cons] at h
      obtain ⟨h1, h2⟩ := List.append_inj h
        (by rw [length_natBits, length_natBits])
      have hxy : x = y :=
        natBits_inj (hx x (List.mem_cons_self x xs))
          (hy y (List.mem_cons_self y ys)) h1
      rw [hxy, ih ys (fun a ha => hx a (List.mem_cons_of_mem x ha))
        (fun a ha => hy a (List.mem_cons_of_mem y ha)) h2]

theorem convertBits_decode_spec (f t : Nat) (ht : 0 < t)
    (data out : List Nat) (h : convertBits f t false data = .ok out) :
    (∀ v ∈ data, v < 2 ^ f) ∧ (∀ p ∈ out, p < 2 ^ t) ∧
    data.flatMap (natBits f) =
      out.flatMap (natBits t) ++ List.replicate ((f * data.length) % t) false ∧
    (f * data.length) % t < f := by
  have hd : ∀ v ∈ data, v < 2 ^ f := by
    simp only [convertBits] at h
    cases hcb : cbRun f t ((1 <<< t) - 1) data 0 0 with
    | ok r => exact cbRun_ok_lt f t _ data 0 0 r hcb
    | error e => rw [hcb] at h; exact absurd h (by simp)
  obtain ⟨out', accF, bitsF, hrun, heq, hbf, hbfv, hout⟩ :=
    cbRun_spec f t ht data 0 0 ht hd
  simp only [convertBits, hrun] at h
  by_cases hcond : f ≤ bitsF ∨ ((accF <<< (t - bitsF)) &&& ((1 <<< t) - 1)) ≠ 0
  · rw [if_pos hcond] at h
    exact absurd h (by simp)
  · rw [if_neg hcond] at h
    push_neg at hcond
    obtain ⟨hbff, hpad⟩ := hcond
    have hout' : out' = out := by
      simpa using h
    subst hout'
    have hbfv' : bitsF = (f * data.length) % t := by
      rw [hbfv, Nat.zero_add]
    have haccF : accF % 2 ^ bitsF = 0 := by
      rw [and_maxv] at hpad
      have hdvd : 2 ^ t ∣ accF <<< (t - bitsF) :=
        Nat.dvd_of_mod_eq_zero hpad
      rw [Nat.shiftLeft_eq] at hdvd
      rw [show (2:Nat) ^ t = 2 ^ bitsF * 2 ^ (t - bitsF) from by
        rw [← pow_add]; congr 1; omega] at hdvd
      have h2 : 2 ^ bitsF ∣ accF :=
        (Nat.mul_dvd_mul_iff_right (Nat.pos_pow_of_pos (t - bitsF)
          (by norm_num))).mp hdvd
      exact Nat.mod_eq_zero_of_dvd h2
    refine ⟨hd, hout, ?_, by omega⟩
    have hrep : natBits bitsF accF = List.replicate bitsF false :=
      (natBits_zero_iff bitsF accF).mpr haccF
    rw [← hbfv']
    simpa [natBits, hrep] using heq

theorem convertBits_pad_spec (f t : Nat) (ht : 0 < t) (data : List Nat)
    (hd : ∀ v ∈ data, v < 2 ^ f) :
    ∃ out, convertBits f t true data = .ok out ∧ (∀ p ∈ out, p < 2 ^ t) ∧
      out.flatMap (natBits t) = data.flatMap (natBits f) ++
        List.replicate ((t - (f * data.length) % t) % t) false := by
  obtain ⟨out, accF, bitsF, hrun, heq, hbf, hbfv, hout⟩ :=
    cbRun_spec f t ht data 0 0 ht hd
  have hbfv' : bitsF = (f * data.length) % t := by
    rw [hbfv, Nat.zero_add]
  simp only [natBits, List.nil_append] at heq
  by_cases hpos : 0 < bitsF
  · refine ⟨out ++ [(accF <<< (t - bitsF)) &&& ((1 <<< t) - 1)], ?_, ?_, ?_⟩
    · simp only [convertBits, hrun, if_pos hpos]
      simp
    · intro p hp
      rcases List.mem_append.mp hp with h | h
      · exact hout p h
      · rw [List.mem_singleton.mp h, and_maxv]
        exact Nat.mod_lt _ (Nat.pos_pow_of_pos t (by norm_num))
    · rw [List.flatMap_append, List.flatMap_cons, List.flatMap_nil,
        List.append_nil]
      have hpad : natBits t (((accF <<< (t - bitsF)) &&& ((1 <<< t) - 1))) =
          natBits bitsF accF ++ List.replicate (t - bitsF) false := by
        rw [and_maxv, natBits_mod t _ t (Nat.le_refl t)]
        have hso := natBits_shift_or bitsF (t - bitsF) accF 0
          (Nat.pos_pow_of_pos (t - bitsF) (by norm_num))
        rw [Nat.or_zero, natBits_zero] at hso
        rw [show bitsF + (t - bitsF) = t from by omega] at hso
        exact hso
      rw [hpad, ← List.append_assoc, ← heq, hbfv']
      congr 2
      rw [← hbfv', Nat.mod_eq_of_lt (by omega)]
  · have hbf0 : bitsF = 0 := by omega
    refine ⟨out, ?_, hout, ?_⟩
    · simp only [convertBits, hrun, if_neg hpos]
      simp
    · rw [← hbfv', hbf0]
      simp only [Nat.sub_zero, Nat.mod_self, List.replicate_zero,
        List.append_nil]
      rw [heq, hbf0]
      simp [natBits]

theorem convertBits_roundtrip (data out : List Nat)
    (h : convertBits 5 8 false data = .ok out) :
    convertBits 8 5 true out = .ok data := by
  obtain ⟨hd5, hout8, heq1, hr5⟩ :=
    convertBits_decode_spec 5 8 (by norm_num) data out h
  obtain ⟨ws, hok, hws5, heq2⟩ :=
    convertBits_pad_spec 8 5 (by norm_num) out hout8
  have hlen : 5 * data.length = 8 * out.length + (5 * data.length) % 8 := by
    have h1 := congrArg List.length heq1
    rw [length_flatMap_natBits, List.length_append, length_flatMap_natBits,
      List.length_replicate] at h1
    omega
  have hmod : (5 - (8 * out.length) % 5) % 5 = (5 * data.length) % 8 := by
    omega
  rw [hmod] at heq2
  rw [← heq1] at heq2
  rw [flatMap_natBits_inj 5 (by norm_num) ws data hws5 hd5 heq2] at hok
  exact hok

theorem xor_left_comm (a b c : Nat) : a ^^^ (b ^^^ c) = b ^^^ (a ^^^ c) := by
  rw [← Nat.xor_assoc, Nat.xor_comm a b, Nat.xor_assoc]

theorem polymodStep_zero_xor (c v : Nat) :
    polymodStep c v = polymodStep c 0 ^^^ v := by
  simp only [polymodStep, Nat.xor_zero]
  simp [Nat.xor_assoc, Nat.xor_comm, xor_left_comm]

theorem polymodStep_xor_offset (c w v : Nat) (hw : w < 2 ^ 25) :
    polymodStep (c ^^^ w) v = polymodStep c v ^^^ (w <<< 5) := by
  have hb : (c ^^^ w) >>> 25 = c >>> 25 := by
    rw [shiftRight_xor_distrib, shiftRight_zero_of_lt hw, Nat.xor_zero]
  have hm : (c ^^^ w) &&& 0x1ffffff = ((c &&& 0x1ffffff) ^^^ w) := by
    rw [Nat.and_xor_distrib_right]
    congr 1
    rw [show (0x1ffffff : Nat) = 2 ^ 25 - 1 from by norm_num,
      Nat.and_pow_two_sub_one_eq_mod, Nat.mod_eq_of_lt hw]
  simp only [polymodStep, hb, hm, shiftLeft_xor_distrib]
  simp [Nat.xor_assoc, Nat.xor_comm, xor_left_comm]

theorem foldl_polymodStep_xor :
    ∀ (vs : List Nat) (c w : Nat), w * 2 ^ (5 * vs.length) < 2 ^ 30 →
    List.foldl polymodStep (c ^^^ w) vs =
      List.foldl polymodStep c vs ^^^ (w <<< (5 * vs.length)) := by
  intro vs
  induction vs with
  | nil =>
    intro c w _
    simp
  | cons v vs ih =>
    intro c w hw
    have h32 : w * 2 ^ 5 ≤ w * 2 ^ (5 * (vs.length + 1)) :=
      Nat.mul_le_mul_left w (Nat.pow_le_pow_right (by norm_num) (by omega))
    have hw25 : w < 2 ^ 25 := by
      rw [List.length_cons] at hw
      have := lt_of_le_of_lt h32 hw
      omega
    simp only [List.foldl_cons]
    rw [polymodStep_xor_offset c w v hw25]
    have hbound : (w <<< 5) * 2 ^ (5 * vs.length) < 2 ^ 30 := by
      rw [Nat.shiftLeft_eq, Nat.mul_assoc, ← pow_add]
      rw [List.length_cons] at hw
      rw [show 5 + 5 * vs.length = 5 * (vs.length + 1) from by ring]
      exact hw
    rw [ih (polymodStep c v) (w <<< 5) hbound]
    rw [← Nat.shiftLeft_add, List.length_cons]
    congr 2
    ring

theorem foldl_head_xor (c v : Nat) (vs : List Nat) (hv : v < 32)
    (hlen : vs.length ≤ 5) :
    List.foldl polymodStep c (v :: vs) =
      List.foldl polymodStep c (0 :: vs) ^^^ (v <<< (5 * vs.length)) := by
  simp only [List.foldl_cons]
  rw [polymodStep_zero_xor c v]
  refine foldl_polymodStep_xor vs (polymodStep c 0) v ?_
  calc v * 2 ^ (5 * vs.length) ≤ 31 * 2 ^ 25 :=
        Nat.mul_le_mul (by omega) (Nat.pow_le_pow_right (by norm_num)
          (by omega))
    _ < 2 ^ 30 := by norm_num

theorem foldl_checksum_expand (c c5 c4 c3 c2 c1 c0 : Nat)
    (h5 : c5 < 32) (h4 : c4 < 32) (h3 : c3 < 32) (h2 : c2 < 32)
    (h1 : c1 < 32) (h0 : c0 < 32) :
    List.foldl polymodStep c [c5, c4, c3, c2, c1, c0] =
      List.foldl polymodStep c [0, 0, 0, 0, 0, 0] ^^^
        ((c5 <<< 25) ^^^ (c4 <<< 20) ^^^ (c3 <<< 15) ^^^ (c2 <<< 10) ^^^
          (c1 <<< 5) ^^^ c0) := by
  have e5 := foldl_head_xor c c5 [c4, c3, c2, c1, c0] h5 (by norm_num)
  have e4 := foldl_head_xor (polymodStep c 0) c4 [c3, c2, c1, c0] h4
    (by norm_num)
  have e3 := foldl_head_xor (polymodStep (polymodStep c 0) 0) c3 [c2, c1, c0]
    h3 (by norm_num)
  have e2 := foldl_head_xor (polymodStep (polymodStep (polymodStep c 0) 0) 0)
    c2 [c1, c0] h2 (by norm_num)
  have e1 := foldl_head_xor (polymodStep (polymodStep (polymodStep
    (polymodStep c 0) 0) 0) 0) c1 [c0] h1 (by norm_num)
  have e0 := foldl_head_xor (polymodStep (polymodStep (polymodStep
    (polymodStep (polymodStep c 0) 0) 0) 0) 0) c0 [] h0 (by norm_num)
  simp only [List.foldl_cons, List.foldl_nil, List.length_cons,
    List.length_nil] at e5 e4 e3 e2 e1 e0 ⊢
  norm_num at e5 e4 e3 e2 e1 e0
  rw [e5, e4, e3, e2, e1, e0]
  simp [Nat.xor_assoc, Nat.xor_comm, xor_left_comm]

theorem shiftLeft_shiftRight_zero (a s k : Nat) (hs : s < k)
    (ha : a < 2 ^ (k - s)) : (a <<< s) >>> k = 0 := by
  rw [shiftLeft_shiftRight_ge a s k (by omega)]
  exact shiftRight_zero_of_lt ha

theorem and31_of_lt {a : Nat} (h : a < 32) : a &&& 31 = a := by
  rw [and_31_eq_mod, Nat.mod_eq_of_lt h]

theorem digit_extract_25 (c5 c4 c3 c2 c1 c0 : Nat)
    (h5 : c5 < 32) (h4 : c4 < 32) (h3 : c3 < 32) (h2 : c2 < 32)
    (h1 : c1 < 32) (h0 : c0 < 32) :
    ((c5 <<< 25) ^^^ (c4 <<< 20) ^^^ (c3 <<< 15) ^^^ (c2 <<< 10) ^^^
      (c1 <<< 5) ^^^ c0) >>> 25 &&& 31 = c5 := by
  simp only [shiftRight_xor_distrib]
  rw [shiftLeft_shiftRight_sub c5 25 25 (by omega), Nat.sub_self,
    Nat.shiftLeft_zero,
    shiftLeft_shiftRight_zero c4 20 25 (by omega) (by norm_num; omega),
    shiftLeft_shiftRight_zero c3 15 25 (by omega) (by norm_num; omega),
    shiftLeft_shiftRight_zero c2 10 25 (by omega) (by norm_num; omega),
    shiftLeft_shiftRight_zero c1 5 25 (by omega) (by norm_num; omega),
    shiftRight_zero_of_lt (show c0 < 2 ^ 25 from by norm_num; omega)]
  simp only [Nat.xor_zero]
  exact and31_of_lt h5

theorem digit_extract_20 (c5 c4 c3 c2 c1 c0 : Nat)
    (h5 : c5 < 32) (h4 : c4 < 32) (h3 : c3 < 32) (h2 : c2 < 32)
    (h1 : c1 < 32) (h0 : c0 < 32) :
    ((c5 <<< 25) ^^^ (c4 <<< 20) ^^^ (c3 <<< 15) ^^^ (c2 <<< 10) ^^^
      (c1 <<< 5) ^^^ c0) >>> 20 &&& 31 = c4 := by
  simp only [shiftRight_xor_distrib]
  rw [shiftLeft_shiftRight_sub c5 25 20 (by omega),
    shiftLeft_shiftRight_sub c4 20 20 (by omega), Nat.sub_self,
    Nat.shiftLeft_zero,
    shiftLeft_shiftRight_zero c3 15 20 (by omega) (by norm_num; omega),
    shiftLeft_shiftRight_zero c2 10 20 (by omega) (by norm_num; omega),
    shiftLeft_shiftRight_zero c1 5 20 (by omega) (by norm_num; omega),
    shiftRight_zero_of_lt (show c0 < 2 ^ 20 from by norm_num; omega)]
  simp only [Nat.xor_zero]
  rw [Nat.and_xor_distrib_right, shiftLeft_and_31 c5 (25 - 20) (by omega),
    and31_of_lt h4, Nat.zero_xor]

theorem digit_extract_15 (c5 c4 c3 c2 c1 c0 : Nat)
    (h5 : c5 < 32) (h4 : c4 < 32) (h3 : c3 < 32) (h2 : c2 < 32)
    (h1 : c1 < 32) (h0 : c0 < 32) :
    ((c5 <<< 25) ^^^ (c4 <<< 20) ^^^ (c3 <<< 15) ^^^ (c2 <<< 10) ^^^
      (c1 <<< 5) ^^^ c0) >>> 15 &&& 31 = c3 := by
  simp only [shiftRight_xor_distrib]
  rw [shiftLeft_shiftRight_sub c5 25 15 (by omega),
    shiftLeft_shiftRight_sub c4 20 15 (by omega),
    shiftLeft_shiftRight_sub c3 15 15 (by omega), Nat.sub_self,
    Nat.shiftLeft_zero,
    shiftLeft_shiftRight_zero c2 10 15 (by omega) (by norm_num; omega),
    shiftLeft_shiftRight_zero c1 5 15 (by omega) (by norm_num; omega),
    shiftRight_zero_of_lt (show c0 < 2 ^ 15 from by norm_num; omega)]
  simp only [Nat.xor_zero]
  rw [Nat.and_xor_distrib_right, Nat.and_xor_distrib_right,
    shiftLeft_and_31 c5 (25 - 15) (by omega),
    shiftLeft_and_31 c4 (20 - 15) (by omega),
    and31_of_lt h3, Nat.zero_xor, Nat.zero_xor]

theorem digit_extract_10 (c5 c4 c3 c2 c1 c0 : Nat)
    (h5 : c5 < 32) (h4 : c4 < 32) (h3 : c3 < 32) (h2 : c2 < 32)
    (h1 : c1 < 32) (h0 : c0 < 32) :
    ((c5 <<< 25) ^^^ (c4 <<< 20) ^^^ (c3 <<< 15) ^^^ (c2 <<< 10) ^^^
      (c1 <<< 5) ^^^ c0) >>> 10 &&& 31 = c2 := by
  simp only [shiftRight_xor_distrib]
  rw [shiftLeft_shiftRight_sub c5 25 10 (by omega),
    shiftLeft_shiftRight_sub c4 20 10 (by omega),
    shiftLeft_shiftRight_sub c3 15 10 (by omega),
    shiftLeft_shiftRight_sub c2 10 10 (by omega), Nat.sub_self,
    Nat.shiftLeft_zero,
    shiftLeft_shiftRight_zero c1 5 10 (by omega) (by norm_num; omega),
    shiftRight_zero_of_lt (show c0 < 2 ^ 10 from by norm_num; omega)]
  simp only [Nat.xor_zero]
  rw [Nat.and_xor_distrib_right, Nat.and_xor_distrib_right,
    Nat.and_xor_distrib_right,
    shiftLeft_and_31 c5 (25 - 10) (by omega),
    shiftLeft_and_31 c4 (20 - 10) (by omega),
    shiftLeft_and_31 c3 (15 - 10) (by omega),
    and31_of_lt h2, Nat.zero_xor, Nat.zero_xor, Nat.zero_xor]

theorem digit_extract_5 (c5 c4 c3 c2 c1 c0 : Nat)
    (h5 : c5 < 32) (h4 : c4 < 32) (h3 : c3 < 32) (h2 : c2 < 32)
    (h1 : c1 < 32) (h0 : c0 < 32) :
    ((c5 <<< 25) ^^^ (c4 <<< 20) ^^^ (c3 <<< 15) ^^^ (c2 <<< 10) ^^^
      (c1 <<< 5) ^^^ c0) >>> 5 &&& 31 = c1 := by
  simp only [shiftRight_xor_distrib]
  rw [shiftLeft_shiftRight_sub c5 25 5 (by omega),
    shiftLeft_shiftRight_sub c4 20 5 (by omega),
    shiftLeft_shiftRight_sub c3 15 5 (by omega),
    shiftLeft_shiftRight_sub c2 10 5 (by omega),
    shiftLeft_shiftRight_sub c1 5 5 (by omega), Nat.sub_self,
    Nat.shiftLeft_zero,
    shiftRight_zero_of_lt (show c0 < 2 ^ 5 from by norm_num; omega)]
  simp only [Nat.xor_zero]
  rw [Nat.and_xor_distrib_right, Nat.and_xor_distrib_right,
    Nat.and_xor_distrib_right, Nat.and_xor_distrib_right,
    shiftLeft_and_31 c5 (25 - 5) (by omega),
    shiftLeft_and_31 c4 (20 - 5) (by omega),
    shiftLeft_and_31 c3 (15 - 5) (by omega),
    shiftLeft_and_31 c2 (10 - 5) (by omega),
    and31_of_lt h1, Nat.zero_xor, Nat.zero_xor, Nat.zero_xor, Nat.zero_xor]

theorem digit_extract_0 (c5 c4 c3 c2 c1 c0 : Nat)
    (h5 : c5 < 32) (h4 : c4 < 32) (h3 : c3 < 32) (h2 : c2 < 32)
    (h1 : c1 < 32) (h0 : c0 < 32) :
    ((c5 <<< 25) ^^^ (c4 <<< 20) ^^^ (c3 <<< 15) ^^^ (c2 <<< 10) ^^^
      (c1 <<< 5) ^^^ c0) &&& 31 = c0 := by
  rw [Nat.and_xor_distrib_right, Nat.and_xor_distrib_right,
    Nat.and_xor_distrib_right, Nat.and_xor_distrib_right,
    Nat.and_xor_distrib_right,
    shiftLeft_and_31 c5 25 (by omega),
    shiftLeft_and_31 c4 20 (by omega),
    shiftLeft_and_31 c3 15 (by omega),
    shiftLeft_and_31 c2 10 (by omega),
    shiftLeft_and_31 c1 5 (by omega),
    and31_of_lt h0, Nat.zero_xor, Nat.zero_xor, Nat.zero_xor, Nat.zero_xor,
    Nat.zero_xor]

theorem createChecksum_eq_of_polymod (hrp data : List Nat)
    (c5 c4 c3 c2 c1 c0 : Nat)
    (h5 : c5 < 32) (h4 : c4 < 32) (h3 : c3 < 32) (h2 : c2 < 32)
    (h1 : c1 < 32) (h0 : c0 < 32)
    (hv : polymod (hrpExpand hrp ++ (data ++ [c5, c4, c3, c2, c1, c0])) =
      0x2bc830a3) :
    createChecksum hrp data .bech32m = [c5, c4, c3, c2, c1, c0] := by
  have hW : polymod (hrpExpand hrp ++ (data ++ [c5, c4, c3, c2, c1, c0])) =
      polymod (hrpExpand hrp ++ data ++ [0, 0, 0, 0, 0, 0]) ^^^
        ((c5 <<< 25) ^^^ (c4 <<< 20) ^^^ (c3 <<< 15) ^^^ (c2 <<< 10) ^^^
          (c1 <<< 5) ^^^ c0) := by
    rw [← List.append_assoc]
    simp only [polymod, List.foldl_append]
    exact foldl_checksum_expand _ c5 c4 c3 c2 c1 c0 h5 h4 h3 h2 h1 h0
  rw [hW] at hv
  have hpm : polymod (hrpExpand hrp ++ data ++ [0, 0, 0, 0, 0, 0]) ^^^
      0x2bc830a3 =
      ((c5 <<< 25) ^^^ (c4 <<< 20) ^^^ (c3 <<< 15) ^^^ (c2 <<< 10) ^^^
        (c1 <<< 5) ^^^ c0) := by
    rw [← hv, ← Nat.xor_assoc, Nat.xor_self, Nat.zero_xor]
  simp only [createChecksum, hpm]
  rw [digit_extract_25 c5 c4 c3 c2 c1 c0 h5 h4 h3 h2 h1 h0,
    digit_extract_20 c5 c4 c3 c2 c1 c0 h5 h4 h3 h2 h1 h0,
    digit_extract_15 c5 c4 c3 c2 c1 c0 h5 h4 h3 h2 h1 h0,
    digit_extract_10 c5 c4 c3 c2 c1 c0 h5 h4 h3 h2 h1 h0,
    digit_extract_5 c5 c4 c3 c2 c1 c0 h5 h4 h3 h2 h1 h0,
    digit_extract_0 c5 c4 c3 c2 c1 c0 h5 h4 h3 h2 h1 h0]

theorem revLookup_spec (x : Nat) :
    ∀ (l : List Nat) (i : Nat), revLookup x l = some i →
    i < l.length ∧ l.getD i 0 = x := by
  intro l
  induction l with
  | nil => intro i h; cases h
  | cons q qs ih =>
    intro i h
    simp only [revLookup] at h
    by_cases hq : q = x
    · rw [if_pos hq] at h
      cases h
      exact ⟨by simp, hq⟩
    · rw [if_neg hq] at h
      cases hrl : revLookup x qs with
      | none => rw [hrl] at h; cases h
      | some j =>
        rw [hrl] at h
        simp only [Option.map_some'] at h
        cases h
        obtain ⟨hj, hget⟩ := ih j hrl
        exact ⟨by simpa using hj, by simpa using hget⟩

theorem charsetRev_spec (c v : Nat) (h : charsetRev c = some v) :
    v < 32 ∧ charsetChar v = toLowerByte c := by
  obtain ⟨hv, hget⟩ := revLookup_spec (toLowerByte c) CHARSET v h
  exact ⟨by simpa [CHARSET] using hv, hget⟩

theorem decodeDataChars_spec :
    ∀ (raw : List Nat) (cs : CaseT) (vs : List Nat),
    decodeDataChars cs raw = .ok vs →
    raw.map toLowerByte = vs.map charsetChar ∧ ∀ v ∈ vs, v < 32 := by
  intro raw
  induction raw with
  | nil =>
    intro cs vs h
    cases h
    exact ⟨rfl, by simp⟩
  | cons c rest ih =>
    intro cs vs h
    simp only [decodeDataChars] at h
    split at h
    · cases h
    · split at h
      · cases h
      · split at h
        · cases h
        · cases hcr : charsetRev c with
          | none => rw [hcr] at h; cases h
          | some v =>
            rw [hcr] at h
            cases hdc : decodeDataChars
                (if 97 ≤ c ∧ c ≤ 122 then CaseT.lower
                 else if 65 ≤ c ∧ c ≤ 90 then CaseT.upper else cs) rest with
            | ok vs2 =>
              rw [hdc] at h
              cases h
              obtain ⟨hmap, hlt⟩ := ih _ vs2 hdc
              obtain ⟨hv32, hchar⟩ := charsetRev_spec c v hcr
              refine ⟨?_, ?_⟩
              · simp only [List.map_cons, hmap, hchar]
              · intro w hw
                rcases List.mem_cons.mp hw with rfl | hw2
                · exact hv32
                · exact hlt w hw2
            | error e => rw [hdc] at h; cases h

theorem splitLast1_eq :
    ∀ (s h d : List Nat), splitLast1 s = some (h, d) → s = h ++ 49 :: d := by
  intro s
  induction s with
  | nil => intro h d hs; cases hs
  | cons b rest ih =>
    intro h d hs
    simp only [splitLast1] at hs
    cases hr : splitLast1 rest with
    | some pd =>
      rw [hr] at hs
      cases hs
      rw [List.cons_append]
      congr 1
      exact ih pd.1 pd.2 (by rw [hr])
    | none =>
      rw [hr] at hs
      by_cases hb : b = 49
      · rw [if_pos hb] at hs
        cases hs
        rw [hb]
        rfl
      · rw [if_neg hb] at hs
        cases hs

theorem u32LE_digits (l0 l1 l2 l3 : Nat) (h0 : l0 < 256) (h1 : l1 < 256)
    (h2 : l2 < 256) (h3 : l3 < 256) :
    Addr.u32LE (l0 + 0x100 * l1 + 0x10000 * l2 + 0x1000000 * l3) =
      [l0, l1, l2, l3] := by
  simp only [Addr.u32LE, List.cons.injEq, and_true]
  refine ⟨by omega, by omega, by omega, by omega⟩

theorem parseBorshString_some (bs h : Bytes)
    (hp : parseBorshString bs = some h) :
    ∃ l0 l1 l2 l3, bs = l0 :: l1 :: l2 :: l3 :: h ∧
      h.length = l0 + 0x100 * l1 + 0x10000 * l2 + 0x1000000 * l3 := by
  match bs with
  | [] => cases hp
  | [_] => cases hp
  | [_, _] => cases hp
  | [_, _, _] => cases hp
  | l0 :: l1 :: l2 :: l3 :: rest =>
    simp only [parseBorshString] at hp
    split at hp
    · cases hp
      rename_i hc
      exact ⟨l0, l1, l2, l3, rfl, hc.1⟩
    · cases hp

theorem borshDecodeAddress_inverse (bs : Bytes) (a : Addr.Address)
    (hb : ∀ b ∈ bs, b < 256) (h : borshDecodeAddress bs = some a) :
    borshEncodeAddress a = bs := by
  match bs with
  | [] => cases h
  | 0 :: rest =>
    simp only [borshDecodeAddress] at h
    cases hps : parseBorshString rest with
    | none => rw [hps] at h; cases h
    | some s =>
      rw [hps] at h
      simp only [Option.map_some'] at h
      cases h
      obtain ⟨l0, l1, l2, l3, hrest, hlen⟩ := parseBorshString_some rest s hps
      simp only [borshEncodeAddress, hrest]
      rw [hlen, u32LE_digits l0 l1 l2 l3
        (hb l0 (by simp [hrest])) (hb l1 (by simp [hrest]))
        (hb l2 (by simp [hrest])) (hb l3 (by simp [hrest]))]
      rfl
  | 1 :: 0 :: rest =>
    simp only [borshDecodeAddress] at h
    cases hps : parseBorshString rest with
    | none => rw [hps] at h; cases h
    | some s =>
      rw [hps] at h
      simp only [Option.map_some'] at h
      cases h
      obtain ⟨l0, l1, l2, l3, hrest, hlen⟩ := parseBorshString_some rest s hps
      simp only [borshEncodeAddress, hrest]
      rw [hlen, u32LE_digits l0 l1 l2 l3
        (hb l0 (by simp [hrest])) (hb l1 (by simp [hrest]))
        (hb l2 (by simp [hrest])) (hb l3 (by simp [hrest]))]
      rfl
  | 1 :: (n + 1) :: rest => cases h
  | (n + 2) :: rest => cases h
  | [1] => cases h

theorem bech32Decode_spec (s hrp data : List Nat) (variant : Variant)
    (h : bech32Decode s = .ok (hrp, data, variant)) :
    ∃ rawHrp rawData dataAll,
      s = rawHrp ++ 49 :: rawData ∧
      hrp = rawHrp.map toLowerByte ∧
      rawData.map toLowerByte = dataAll.map charsetChar ∧
      (∀ v ∈ dataAll, v < 32) ∧
      6 ≤ dataAll.length ∧
      data = dataAll.take (dataAll.length - 6) ∧
      (variant = .bech32m →
        polymod (hrpExpand hrp ++ dataAll) = 0x2bc830a3) := by
  simp only [bech32Decode] at h
  cases hsp : splitLast1 s with
  | none => simp [hsp] at h
  | some p =>
    obtain ⟨rawHrp, rawData⟩ := p
    simp only [hsp] at h
    cases hch : checkHrp rawHrp with
    | error e => simp [hch] at h
    | ok cs =>
      simp only [hch] at h
      cases hdc : decodeDataChars cs rawData with
      | error e => simp [hdc] at h
      | ok dataAll =>
        simp only [hdc] at h
        by_cases hlen : dataAll.length < 6
        · simp [if_pos hlen] at h
        · rw [if_neg hlen] at h
          cases hvc : verifyChecksum (rawHrp.map toLowerByte) dataAll with
          | none => simp [hvc] at h
          | some v0 =>
            simp only [hvc] at h
            obtain ⟨hmap, hlt⟩ := decodeDataChars_spec rawData cs dataAll hdc
            injection h with h2
            rw [Prod.mk.injEq, Prod.mk.injEq] at h2
            obtain ⟨hh, hd, hv⟩ := h2
            refine ⟨rawHrp, rawData, dataAll, splitLast1_eq s rawHrp rawData
              hsp, hh.symm, hmap, hlt, by omega, hd.symm, ?_⟩
            intro hvar
            rw [hv, hvar] at hvc
            simp only [verifyChecksum] at hvc
            by_cases hpm1 :
                polymod (hrpExpand (rawHrp.map toLowerByte) ++ dataAll) = 1
            · rw [if_pos hpm1] at hvc
              injection hvc with hvc2
              cases hvc2
            · rw [if_neg hpm1] at hvc
              by_cases hpmC :
                  polymod (hrpExpand (rawHrp.map toLowerByte) ++ dataAll) =
                    0x2bc830a3
              · rw [← hh]
                exact hpmC
              · rw [if_neg hpmC] at hvc
                cases hvc

theorem addrEncode_of_decode (s : List Nat) (a : Addr.Address)
    (h : addrDecode s = .ok a) : addrEncode a = s.map toLowerByte := by
  simp only [addrDecode] at h
  cases hbd : bech32Decode s with
  | error e => simp [hbd] at h
  | ok r =>
    obtain ⟨hrp, data, variant⟩ := r
    simp only [hbd] at h
    by_cases hhrp : hrp ≠ [97]
    · simp [if_pos hhrp] at h
    · rw [if_neg hhrp] at h
      push_neg at hhrp
      cases variant with
      | bech32 => simp at h
      | bech32m =>
        cases hcb : convertBits 5 8 false data with
        | error e => simp [hcb] at h
        | ok bytes =>
          simp only [hcb] at h
          cases hba : borshDecodeAddress bytes with
          | none => simp [hba] at h
          | some addr =>
            simp only [hba] at h
            -- dissect the hash-length checks, getting a = addr
            have haddr : a = addr := by
              cases addr with
              | established hh =>
                dsimp only at h
                by_cases hl : hh.length ≠ 40
                · simp [if_pos hl] at h
                · rw [if_neg hl] at h
                  injection h with h2
                  exact h2.symm
              | implicitEd25519 p =>
                dsimp only at h
                by_cases hl : p.length ≠ 40
                · simp [if_pos hl] at h
                · rw [if_neg hl] at h
                  injection h with h2
                  exact h2.symm
            subst haddr
            -- unpack the bech32 decoding
            obtain ⟨rawHrp, rawData, dataAll, hs, hhrp2, hmap, hlt32, h6,
              hdata, hpm⟩ := bech32Decode_spec s hrp data .bech32m hbd
            have hpm' := hpm rfl
            -- byte-level facts from the 5→8 conversion
            obtain ⟨hd5, hout8, _, _⟩ :=
              convertBits_decode_spec 5 8 (by norm_num) data bytes hcb
            -- the encoder's conversion inverts the decoder's
            have hrt : convertBits 8 5 true bytes = .ok data :=
              convertBits_roundtrip data bytes hcb
            -- Borsh serialization inverts deserialization
            have henc : borshEncodeAddress a = bytes :=
              borshDecodeAddress_inverse bytes a
                (fun b hb => by simpa using hout8 b hb) hba
            -- identify the checksum digits
            have hsplitD : data ++ dataAll.drop (dataAll.length - 6) =
                dataAll := by
              rw [hdata]
              exact List.take_append_drop _ dataAll
            have hdl : (dataAll.drop (dataAll.length - 6)).length = 6 := by
              rw [List.length_drop]
              omega
            have hdlt : ∀ v ∈ dataAll.drop (dataAll.length - 6), v < 32 :=
              fun v hv => hlt32 v (List.drop_subset _ dataAll hv)
            -- name the six digits
            rcases hck : dataAll.drop (dataAll.length - 6) with
              _ | ⟨c5, _ | ⟨c4, _ | ⟨c3, _ | ⟨c2, _ | ⟨c1, _ | ⟨c0,
                _ | ⟨x, rest⟩⟩⟩⟩⟩⟩⟩ <;>
              rw [hck] at hdl <;> simp at hdl
            rw [hck] at hsplitD hdlt
            have hcs : createChecksum [97] data .bech32m =
                [c5, c4, c3, c2, c1, c0] := by
              refine createChecksum_eq_of_polymod [97] data c5 c4 c3 c2 c1 c0
                (hdlt c5 (by simp)) (hdlt c4 (by simp)) (hdlt c3 (by simp))
                (hdlt c2 (by simp)) (hdlt c1 (by simp)) (hdlt c0 (by simp))
                ?_
              rw [hsplitD, ← hhrp]
              exact hpm'
            -- assemble the encoder output
            simp only [addrEncode, henc, hrt, hcs]
            have hrh : List.map toLowerByte rawHrp = [97] := by
              rw [← hhrp2, hhrp]
            rw [hs]
            simp [hrh, hmap, ← hsplitD,
              show toLowerByte 49 = 49 from by decide]

end B32

/-! ## Claim theorems (first group) -/

/-- C1: if some validity predicate returns false, the staged tx-scope writes
are discarded by `drop_tx`: the write log returns to exactly the state from
before the transaction began (empty tx log over the same block log), every
`read` observes the pre-transaction state, and committing the block afterwards
produces a storage without any effect of the transaction. -/
theorem C1_vp_rejection_drops_tx
    (block0 : List (String × WL.StorageModification)) (ops : List WL.TxOp)
    (vps : List Bool) (storage : String → Option Bytes)
    (hrej : false ∈ vps) :
    WL.applyTxDecision vps (WL.applyTxOps ⟨[], block0⟩ ops) = ⟨[], block0⟩ ∧
    (∀ k, (WL.applyTxDecision vps (WL.applyTxOps ⟨[], block0⟩ ops)).read storage k =
      (WL.WriteLog.mk [] block0).read storage k) ∧
    (WL.applyTxDecision vps (WL.applyTxOps ⟨[], block0⟩ ops)).commitBlock storage =
      (WL.WriteLog.mk [] block0).commitBlock storage := by
  have hdec : WL.applyTxDecision vps (WL.applyTxOps ⟨[], block0⟩ ops) =
      ⟨[], block0⟩ := by
    unfold WL.applyTxDecision
    rw [WL.isAccepted_eq_false hrej]
    simp [WL.WriteLog.dropTx, WL.applyTxOps_block_eq]
  exact ⟨hdec, fun k => by rw [hdec], by rw [hdec]⟩

/-- Witness for C1 at a concrete rejected transaction. -/
theorem C1_vp_rejection_drops_tx_witness :
    WL.applyTxDecision [true, false]
      (WL.applyTxOps ⟨[], []⟩ [WL.TxOp.write "k" [1, 2]]) = ⟨[], []⟩ :=
  (C1_vp_rejection_drops_tx [] [WL.TxOp.write "k" [1, 2]] [true, false]
    (fun _ => none) (by decide)).1

/-- C10: `PrefixIterators::next` is total in the iterator id: an id absent
from the table yields `None` and leaves the table unchanged, while a present
id yields that iterator's next item. -/
theorem C10_prefix_iterators_next_total {α : Type}
    (p : PIt.PrefixIterators α) (id : Nat) :
    (p.lookup id = none → p.next id = (none, p)) ∧
    (∀ it, p.lookup id = some it → (p.next id).1 = it.head?) := by
  constructor
  · intro h
    unfold PIt.PrefixIterators.next
    rw [h]
  · intro it h
    unfold PIt.PrefixIterators.next
    rw [h]

/-- Witness for C10: id 1 is absent from a table holding only id 0, so `next`
returns `None`; id 0 is present and yields its head element. -/
theorem C10_prefix_iterators_next_total_witness :
    (PIt.PrefixIterators.next ⟨1, [(0, [5])]⟩ 1 =
      (none, (⟨1, [(0, [5])]⟩ : PIt.PrefixIterators Nat))) ∧
    ((PIt.PrefixIterators.next (⟨1, [(0, [5])]⟩ : PIt.PrefixIterators Nat) 0).1 =
      some 5) :=
  ⟨(C10_prefix_iterators_next_total ⟨1, [(0, [5])]⟩ 1).1 rfl,
    (C10_prefix_iterators_next_total ⟨1, [(0, [5])]⟩ 0).2 [5] rfl⟩

theorem writeBlockBatch_keys (h : Nat) (root store hash gen : Bytes)
    (subspaces : List (List String × Bytes)) (p : RDB.DBKey × Bytes)
    (hp : p ∈ RDB.writeBlockBatch h root store hash gen subspaces) :
    ∃ path, p.1 = RDB.DBKey.blockRow h path := by
  unfold RDB.writeBlockBatch at hp
  simp only [List.mem_append, List.mem_cons, List.mem_map,
    List.not_mem_nil, or_false] at hp
  rcases hp with ((h1 | h2 | h3) | ⟨q, _, rfl⟩) | h5
  · exact ⟨_, by rw [h1]⟩
  · exact ⟨_, by rw [h2]⟩
  · exact ⟨_, by rw [h3]⟩
  · exact ⟨_, rfl⟩
  · exact ⟨_, by rw [h5]⟩

/-- C2: in `write_block` the top-level `height` pointer is written strictly
after the atomic batch holding every sub-key of the block: the batch leaves
the pointer untouched; before the pointer write, all four essential rows and
every subspace row of the new block are already present; and in each of the
three observable DB states, any block the height pointer refers to is
complete, so the pointer never refers to a partially written block. -/
theorem C2_height_pointer_written_last
    (d : RDB.DBState) (h : Nat) (root store hash gen : Bytes)
    (subspaces : List (List String × Bytes))
    (hh : h < 0x10000000000000000)
    (hinv : ∀ hp, hp < 0x10000000000000000 →
      d RDB.DBKey.height = some (RDB.u64LE hp) → RDB.CompleteBlock d hp) :
    RDB.applyPuts d (RDB.writeBlockBatch h root store hash gen subspaces)
        RDB.DBKey.height = d RDB.DBKey.height ∧
    RDB.put (RDB.applyPuts d (RDB.writeBlockBatch h root store hash gen
        subspaces)) RDB.DBKey.height (RDB.u64LE h) RDB.DBKey.height =
      some (RDB.u64LE h) ∧
    RDB.CompleteBlock
      (RDB.applyPuts d (RDB.writeBlockBatch h root store hash gen subspaces))
      h ∧
    (∀ p ∈ subspaces,
      ((RDB.applyPuts d (RDB.writeBlockBatch h root store hash gen subspaces))
        (RDB.DBKey.blockRow h ("subspace" :: p.1))).isSome) ∧
    (∀ s ∈ RDB.writeBlockStates d h root store hash gen subspaces,
      ∀ hp, hp < 0x10000000000000000 →
        s RDB.DBKey.height = some (RDB.u64LE hp) → RDB.CompleteBlock s hp) := by
  set batch := RDB.writeBlockBatch h root store hash gen subspaces with hbatch
  have hkeys : ∀ p ∈ batch, p.1 ≠ RDB.DBKey.height := by
    intro p hp
    obtain ⟨path, hpath⟩ := writeBlockBatch_keys h root store hash gen
      subspaces p hp
    rw [hpath]
    intro hfalse
    exact RDB.DBKey.noConfusion hfalse
  have hptr : RDB.applyPuts d batch RDB.DBKey.height = d RDB.DBKey.height :=
    RDB.applyPuts_not_mem d batch RDB.DBKey.height hkeys
  have hcomplete : RDB.CompleteBlock (RDB.applyPuts d batch) h := by
    refine ⟨RDB.applyPuts_isSome_of_mem d batch _ root ?_,
      RDB.applyPuts_isSome_of_mem d batch _ store ?_,
      RDB.applyPuts_isSome_of_mem d batch _ hash ?_,
      RDB.applyPuts_isSome_of_mem d batch _ gen ?_⟩ <;>
      · rw [hbatch]; unfold RDB.writeBlockBatch; simp
  have hmono : ∀ k, (d k).isSome → ((RDB.applyPuts d batch) k).isSome :=
    fun k hk => RDB.applyPuts_isSome_mono d batch k hk
  refine ⟨hptr, by simp [RDB.put], hcomplete, ?_, ?_⟩
  · intro p hp
    refine RDB.applyPuts_isSome_of_mem d batch _ p.2 ?_
    rw [hbatch]; unfold RDB.writeBlockBatch
    simp only [List.mem_append, List.mem_cons, List.mem_map,
      List.not_mem_nil, or_false]
    exact Or.inl (Or.inr ⟨p, hp, rfl⟩)
  · intro s hs hp hplt hsptr
    rcases List.mem_cons.mp hs with rfl | hs1
    · exact hinv hp hplt hsptr
    rcases List.mem_cons.mp hs1 with rfl | hs2
    · rw [hptr] at hsptr
      have := hinv hp hplt hsptr
      exact ⟨hmono _ this.1, hmono _ this.2.1, hmono _ this.2.2.1,
        hmono _ this.2.2.2⟩
    rcases List.mem_cons.mp hs2 with rfl | hs3
    · have hpe : hp = h := by
        have h2 : RDB.put (RDB.applyPuts d batch) RDB.DBKey.height
            (RDB.u64LE h) RDB.DBKey.height = some (RDB.u64LE h) := by
          simp [RDB.put]
        rw [h2] at hsptr
        exact (RDB.u64LE_inj hh hplt (Option.some_inj.mp hsptr)).symm
      subst hpe
      exact ⟨RDB.put_isSome_mono _ _ _ _ hcomplete.1,
        RDB.put_isSome_mono _ _ _ _ hcomplete.2.1,
        RDB.put_isSome_mono _ _ _ _ hcomplete.2.2.1,
        RDB.put_isSome_mono _ _ _ _ hcomplete.2.2.2⟩
    · exact absurd hs3 (List.not_mem_nil s)

/-- Witness for C2 on an empty DB and a concrete block. -/
theorem C2_height_pointer_written_last_witness :
    RDB.applyPuts (fun _ => none)
      (RDB.writeBlockBatch 1 [7] [8] [9] [10] []) RDB.DBKey.height =
      (fun _ => (none : Option Bytes)) RDB.DBKey.height :=
  (C2_height_pointer_written_last (fun _ => none) 1 [7] [8] [9] [10] []
    (by norm_num) (fun hp _ hfalse => Option.noConfusion hfalse)).1

/-- C3: `read_last_block` returns `None` when the `chain_id` or `height`
top-level pointer is absent; with a stored height, a scan that leaves any of
the tree root, tree store, block hash or address generator unset fails with a
`Temporary` error; a row under the block prefix matching no known section
fails with `UnknownKey` (a second segment outside the four known names, no
second segment at all, a `tree` row with no third segment, or a `tree` row
whose third segment is neither `root` nor `store`); and a decode error on any
essential field (chain id, height, tree root, tree store, block hash or
address generator) is a coding error rather than a reconstructed state. -/
theorem C3_read_last_block_failure_modes (c : RLB.Codecs) (db : RLB.RDBModel) :
    (db.chainId = none → RLB.readLastBlock c db = .ok none) ∧
    (∀ cb ci, db.chainId = some cb → c.decodeChainId cb = .ok ci →
      db.height = none → RLB.readLastBlock c db = .ok none) ∧
    (∀ cb ci hb h acc, db.chainId = some cb → c.decodeChainId cb = .ok ci →
      db.height = some hb → c.decodeHeight hb = .ok h →
      (db.blocks h).foldlM (RLB.processRow c) RLB.Acc.empty = .ok acc →
      (acc.root = none ∨ acc.store = none ∨ acc.hash = none ∨
        acc.addressGen = none) →
      RLB.readLastBlock c db =
        .error (.temporary "Essential data couldn't be read from the DB")) ∧
    (∀ cb ci hb h pre bad post acc seg,
      db.chainId = some cb → c.decodeChainId cb = .ok ci →
      db.height = some hb → c.decodeHeight hb = .ok h →
      db.blocks h = pre ++ bad :: post →
      pre.foldlM (RLB.processRow c) RLB.Acc.empty = .ok acc →
      bad.1.get? 1 = some seg → seg ≠ "tree" → seg ≠ "hash" →
      seg ≠ "subspace" → seg ≠ "address_gen" →
      RLB.readLastBlock c db = .error (.unknownKey bad.1)) ∧
    (∀ cb msg, db.chainId = some cb → c.decodeChainId cb = .error msg →
      RLB.readLastBlock c db = .error (.codingError msg)) ∧
    (∀ cb ci hb msg, db.chainId = some cb → c.decodeChainId cb = .ok ci →
      db.height = some hb → c.decodeHeight hb = .error msg →
      RLB.readLastBlock c db = .error (.codingError msg)) ∧
    (∀ cb ci hb h pre bad post acc msg,
      db.chainId = some cb → c.decodeChainId cb = .ok ci →
      db.height = some hb → c.decodeHeight hb = .ok h →
      db.blocks h = pre ++ bad :: post →
      pre.foldlM (RLB.processRow c) RLB.Acc.empty = .ok acc →
      bad.1.get? 1 = some "tree" → bad.1.get? 2 = some "root" →
      c.decodeRoot bad.2 = .error msg →
      RLB.readLastBlock c db = .error (.codingError msg)) ∧
    (∀ cb ci hb h pre bad post acc msg,
      db.chainId = some cb → c.decodeChainId cb = .ok ci →
      db.height = some hb → c.decodeHeight hb = .ok h →
      db.blocks h = pre ++ bad :: post →
      pre.foldlM (RLB.processRow c) RLB.Acc.empty = .ok acc →
      bad.1.get? 1 = some "tree" → bad.1.get? 2 = some "store" →
      c.decodeStore bad.2 = .error msg →
      RLB.readLastBlock c db = .error (.codingError msg)) ∧
    (∀ cb ci hb h pre bad post acc msg,
      db.chainId = some cb → c.decodeChainId cb = .ok ci →
      db.height = some hb → c.decodeHeight hb = .ok h →
      db.blocks h = pre ++ bad :: post →
      pre.foldlM (RLB.processRow c) RLB.Acc.empty = .ok acc →
      bad.1.get? 1 = some "hash" →
      c.decodeHash bad.2 = .error msg →
      RLB.readLastBlock c db = .error (.codingError msg)) ∧
    (∀ cb ci hb h pre bad post acc msg,
      db.chainId = some cb → c.decodeChainId cb = .ok ci →
      db.height = some hb → c.decodeHeight hb = .ok h →
      db.blocks h = pre ++ bad :: post →
      pre.foldlM (RLB.processRow c) RLB.Acc.empty = .ok acc →
      bad.1.get? 1 = some "address_gen" →
      c.decodeGen bad.2 = .error msg →
      RLB.readLastBlock c db = .error (.codingError msg)) ∧
    (∀ cb ci hb h pre bad post acc,
      db.chainId = some cb → c.decodeChainId cb = .ok ci →
      db.height = some hb → c.decodeHeight hb = .ok h →
      db.blocks h = pre ++ bad :: post →
      pre.foldlM (RLB.processRow c) RLB.Acc.empty = .ok acc →
      bad.1.get? 1 = none →
      RLB.readLastBlock c db = .error (.unknownKey bad.1)) ∧
    (∀ cb ci hb h pre bad post acc,
      db.chainId = some cb → c.decodeChainId cb = .ok ci →
      db.height = some hb → c.decodeHeight hb = .ok h →
      db.blocks h = pre ++ bad :: post →
      pre.foldlM (RLB.processRow c) RLB.Acc.empty = .ok acc →
      bad.1.get? 1 = some "tree" → bad.1.get? 2 = none →
      RLB.readLastBlock c db = .error (.unknownKey bad.1)) ∧
    (∀ cb ci hb h pre bad post acc smt,
      db.chainId = some cb → c.decodeChainId cb = .ok ci →
      db.height = some hb → c.decodeHeight hb = .ok h →
      db.blocks h = pre ++ bad :: post →
      pre.foldlM (RLB.processRow c) RLB.Acc.empty = .ok acc →
      bad.1.get? 1 = some "tree" → bad.1.get? 2 = some smt →
      smt ≠ "root" → smt ≠ "store" →
      RLB.readLastBlock c db = .error (.unknownKey bad.1)) := by
  refine ⟨?_, ?_, ?_, ?_, ?_, ?_, ?_, ?_, ?_, ?_, ?_, ?_, ?_⟩
  · intro hc
    simp [RLB.readLastBlock, hc]
  · intro cb ci hcb hci hh
    simp [RLB.readLastBlock, hcb, hci, hh]
  · intro cb ci hb h acc hcb hci hhb hh hfold hmiss
    simp only [RLB.readLastBlock, hcb, hci, hhb, hh, hfold]
    rcases o1 : acc.root with _ | r <;> rcases o2 : acc.store with _ | s <;>
      rcases o3 : acc.hash with _ | hs <;>
      rcases o4 : acc.addressGen with _ | g <;> simp_all
  · intro cb ci hb h pre bad post acc seg hcb hci hhb hh hrows hfold hseg
      h1 h2 h3 h4
    refine RLB.readLastBlock_row_error c db cb ci hb h pre bad post acc _
      hcb hci hhb hh hrows hfold ?_
    unfold RLB.processRow
    rw [hseg]
    simp [h1, h2, h3, h4]
  · intro cb msg hcb hmsg
    simp [RLB.readLastBlock, hcb, hmsg]
  · intro cb ci hb msg hcb hci hhb hmsg
    simp [RLB.readLastBlock, hcb, hci, hhb, hmsg]
  · intro cb ci hb h pre bad post acc msg hcb hci hhb hh hrows hfold hseg
      hsmt hdec
    refine RLB.readLastBlock_row_error c db cb ci hb h pre bad post acc _
      hcb hci hhb hh hrows hfold ?_
    unfold RLB.processRow
    rw [hseg]
    simp only [List.get?_eq_getElem?] at hsmt
    simp [hsmt, hdec]
  · intro cb ci hb h pre bad post acc msg hcb hci hhb hh hrows hfold hseg
      hsmt hdec
    refine RLB.readLastBlock_row_error c db cb ci hb h pre bad post acc _
      hcb hci hhb hh hrows hfold ?_
    unfold RLB.processRow
    rw [hseg]
    simp only [List.get?_eq_getElem?] at hsmt
    simp [hsmt, hdec]
  · intro cb ci hb h pre bad post acc msg hcb hci hhb hh hrows hfold hseg
      hdec
    refine RLB.readLastBlock_row_error c db cb ci hb h pre bad post acc _
      hcb hci hhb hh hrows hfold ?_
    unfold RLB.processRow
    rw [hseg]
    simp [hdec]
  · intro cb ci hb h pre bad post acc msg hcb hci hhb hh hrows hfold hseg
      hdec
    refine RLB.readLastBlock_row_error c db cb ci hb h pre bad post acc _
      hcb hci hhb hh hrows hfold ?_
    unfold RLB.processRow
    rw [hseg]
    simp [hdec]
  · intro cb ci hb h pre bad post acc hcb hci hhb hh hrows hfold hseg
    refine RLB.readLastBlock_row_error c db cb ci hb h pre bad post acc _
      hcb hci hhb hh hrows hfold ?_
    unfold RLB.processRow
    rw [hseg]
  · intro cb ci hb h pre bad post acc hcb hci hhb hh hrows hfold hseg hsmt
    refine RLB.readLastBlock_row_error c db cb ci hb h pre bad post acc _
      hcb hci hhb hh hrows hfold ?_
    unfold RLB.processRow
    rw [hseg]
    simp only [List.get?_eq_getElem?] at hsmt
    simp [hsmt]
  · intro cb ci hb h pre bad post acc smt hcb hci hhb hh hrows hfold hseg
      hsmt hr hs
    refine RLB.readLastBlock_row_error c db cb ci hb h pre bad post acc _
      hcb hci hhb hh hrows hfold ?_
    unfold RLB.processRow
    rw [hseg]
    simp only [List.get?_eq_getElem?] at hsmt
    simp [hsmt, hr, hs]

/-- Witness for C3: a DB with a chain id but no height pointer reads as
`Ok(None)`; a DB whose only block row is unknown fails with `UnknownKey`;
and a DB whose only row is a `tree/store` row with a failing store decoder
fails with a coding error. -/
theorem C3_read_last_block_failure_modes_witness :
    RLB.readLastBlock
      ⟨fun b => .ok b, fun _ => .ok 0, fun b => .ok b, fun b => .ok b,
        fun b => .ok b, fun b => .ok b, fun s => .ok s⟩
      ⟨some [1], none, fun _ => []⟩ = .ok none ∧
    RLB.readLastBlock
      ⟨fun b => .ok b, fun _ => .ok 0, fun b => .ok b, fun b => .ok b,
        fun b => .ok b, fun b => .ok b, fun s => .ok s⟩
      ⟨some [1], some [0], fun _ => [(["0", "bogus"], [2])]⟩ =
      .error (.unknownKey ["0", "bogus"]) ∧
    RLB.readLastBlock
      ⟨fun b => .ok b, fun _ => .ok 0, fun b => .ok b,
        fun _ => .error "bad", fun b => .ok b, fun b => .ok b,
        fun s => .ok s⟩
      ⟨some [1], some [0], fun _ => [(["0", "tree", "store"], [2])]⟩ =
      .error (.codingError "bad") :=
  ⟨(C3_read_last_block_failure_modes _ _).2.1 [1] [1] rfl rfl rfl,
    (C3_read_last_block_failure_modes _ _).2.2.2.1 [1] [1] [0] 0 []
      (["0", "bogus"], [2]) [] RLB.Acc.empty "bogus" rfl rfl rfl rfl rfl rfl
      rfl (by decide) (by decide) (by decide) (by decide),
    (C3_read_last_block_failure_modes _ _).2.2.2.2.2.2.2.1 [1] [1] [0] 0 []
      (["0", "tree", "store"], [2]) [] RLB.Acc.empty "bad" rfl rfl rfl rfl
      rfl rfl rfl rfl rfl⟩

/-- C7: every item yielded by `iter_prefix` followed by draining the
iterator is a triple `(k, v, gas)` where `dbprefix ++ k` is a stored key of
the DB with value `v`, `gas = k.length + v.length`, only keys extending the
given prefix are yielded, and the yielded suffixes are in ascending order
(the segment-induced order of the comparator-sorted DB). -/
theorem C7_iter_prefix_items (db : List (List Nat × Bytes)) (height : Nat)
    (pref : List Nat) (hh : height < 0x10000000000000000)
    (hsort : db.Pairwise (fun e1 e2 => KC.keyComparator e1.1 e2.1 = .lt))
    (hpne : pref ≠ []) (hlast : pref.getLast? ≠ some 47) :
    (∀ it ∈ KC.iterPrefRun db height pref,
      (KC.dbPref height ++ it.1, it.2.1) ∈ db ∧
        it.2.2 = it.1.length + it.2.1.length) ∧
    (∀ it ∈ KC.iterPrefRun db height pref, pref <+: it.1) ∧
    (KC.iterPrefRun db height pref).Pairwise
      (fun a b => KC.modCmp a.1 b.1 = .lt) := by
  obtain ⟨p0, c, hpc, hc47⟩ :
      ∃ p0 c, pref = p0 ++ [c] ∧ c ≠ 47 := by
    refine ⟨pref.dropLast, pref.getLast hpne,
      (List.dropLast_append_getLast hpne).symm, ?_⟩
    intro hfalse
    exact hlast (by rw [List.getLast?_eq_getLast pref hpne, hfalse])
  have hupper : KC.bumpLast (KC.dbPref height ++ pref) =
      KC.dbPref height ++ (p0 ++ [c + 1]) := by
    rw [hpc, show KC.dbPref height ++ (p0 ++ [c]) =
      (KC.dbPref height ++ p0) ++ [c] from by simp, KC.bumpLast_concat]
    simp
  have hmem : ∀ it ∈ KC.iterPrefRun db height pref,
      ∃ e ∈ db, (KC.keyComparator (KC.dbPref height ++ pref) e.1 ≠ .gt ∧
        KC.keyComparator e.1 (KC.bumpLast (KC.dbPref height ++ pref)) = .lt) ∧
        ∃ k, KC.stripPref (KC.dbPref height) e.1 = some k ∧
          it = (k, e.2, k.length + e.2.length) := by
    intro it hit
    unfold KC.iterPrefRun KC.iterItems at hit
    obtain ⟨e, he, hfe⟩ := List.mem_filterMap.mp hit
    obtain ⟨k, hk, hke⟩ := Option.map_eq_some'.mp hfe
    rw [KC.iterPrefEntries, List.mem_filter] at he
    exact ⟨e, he.1, by simpa using he.2, k, hk, hke.symm⟩
  refine ⟨?_, ?_, ?_⟩
  · intro it hit
    obtain ⟨e, he, _, k, hk, hke⟩ := hmem it hit
    have hek : e.1 = KC.dbPref height ++ k := KC.stripPref_some hk
    subst hke
    constructor
    · show (KC.dbPref height ++ k, e.2) ∈ db
      rw [← hek]
      exact he
    · rfl
  · intro it hit
    obtain ⟨e, he, ⟨h1, h2⟩, k, hk, hke⟩ := hmem it hit
    have hek : e.1 = KC.dbPref height ++ k := KC.stripPref_some hk
    rw [hek] at h1 h2
    rw [KC.keyComparator_dbPref height hh] at h1
    rw [hupper, KC.keyComparator_dbPref height hh] at h2
    rw [hpc] at h1 ⊢
    subst hke
    exact KC.modCmp_interval p0 k c hc47 h1 h2
  · unfold KC.iterPrefRun KC.iterItems
    refine KC.pairwise_filterMap_of _ (hsort.filter _) ?_
    · intro e1 e2 it1 it2 hf1 hf2 hR
      obtain ⟨k1, hk1, hke1⟩ := Option.map_eq_some'.mp hf1
      obtain ⟨k2, hk2, hke2⟩ := Option.map_eq_some'.mp hf2
      have he1 : e1.1 = KC.dbPref height ++ k1 := KC.stripPref_some hk1
      have he2 : e2.1 = KC.dbPref height ++ k2 := KC.stripPref_some hk2
      rw [he1, he2, KC.keyComparator_dbPref height hh] at hR
      rw [← hke1, ← hke2]
      exact hR

/-- Witness for C7 on a one-entry DB. -/
theorem C7_iter_prefix_items_witness :
    (KC.iterPrefRun [(KC.dbPref 1 ++ [112, 48], [5])] 1 [112]).Pairwise
      (fun a b => KC.modCmp a.1 b.1 = .lt) :=
  (C7_iter_prefix_items [(KC.dbPref 1 ++ [112, 48], [5])] 1 [112]
    (by norm_num) (List.pairwise_singleton _ _) (by simp)
    (by decide)).2.2

/-- C9: with no filter configured, `apply_filter` accepts every intent, so
`try_match_intent` inserts the intent into the mempool and runs the
matchmaker WASM; with a filter present, the intent is admitted to the mempool
(and the matchmaker runs) exactly when the filter's `validate` returns true:
on `false` the mempool is untouched and the result is `Ok(false)`, and on a
filter error the mempool is untouched and the error propagates. -/
theorem C9_filter_admission (idOf : MM.Intent → Bytes)
    (runner : Bytes → Bytes → Bytes → Bytes → Except String Bool)
    (m : MM.Matchmaker) (intent : MM.Intent) :
    (m.filter = none → MM.applyFilter m intent = .ok true) ∧
    (m.filter = none →
      MM.tryMatchIntent idOf runner m intent =
        MM.runnerStep idOf runner (MM.insertIntent idOf m intent) intent) ∧
    (∀ f, m.filter = some f → f intent = .ok true →
      MM.tryMatchIntent idOf runner m intent =
        MM.runnerStep idOf runner (MM.insertIntent idOf m intent) intent) ∧
    (∀ f, m.filter = some f → f intent = .ok false →
      MM.tryMatchIntent idOf runner m intent = some (m, .ok false)) ∧
    (∀ f e, m.filter = some f → f intent = .error e →
      MM.tryMatchIntent idOf runner m intent =
        some (m, .error (.filter e))) := by
  refine ⟨?_, ?_, ?_, ?_, ?_⟩
  · intro hf
    simp [MM.applyFilter, hf]
  · intro hf
    simp [MM.tryMatchIntent, MM.applyFilter, hf]
  · intro f hf hv
    simp [MM.tryMatchIntent, MM.applyFilter, hf, hv]
  · intro f hf hv
    simp [MM.tryMatchIntent, MM.applyFilter, hf, hv]
  · intro f e hf hv
    simp [MM.tryMatchIntent, MM.applyFilter, hf, hv]

/-- Witness for C9 with no filter and with a rejecting filter. -/
theorem C9_filter_admission_witness :
    MM.applyFilter ⟨[], none, [9], [7]⟩ ⟨[1], 0⟩ = .ok true ∧
    MM.tryMatchIntent (fun i => i.data) (fun _ _ _ _ => .ok true)
      ⟨[], some (fun _ => .ok false), [9], [7]⟩ ⟨[1], 0⟩ =
      some (⟨[], some (fun _ => .ok false), [9], [7]⟩, .ok false) :=
  ⟨(C9_filter_admission (fun i => i.data) (fun _ _ _ _ => .ok true)
      ⟨[], none, [9], [7]⟩ ⟨[1], 0⟩).1 rfl,
    (C9_filter_admission (fun i => i.data) (fun _ _ _ _ => .ok true)
      ⟨[], some (fun _ => .ok false), [9], [7]⟩ ⟨[1], 0⟩).2.2.2.1
      (fun _ => .ok false) rfl rfl⟩

/-- C8: decoding the bytes produced by `Tx::to_bytes` yields a `Tx` equal to
the original, with code, data and timestamp preserved (for timestamps in the
`i32` nanos wire-image range); and decoding transaction bytes whose timestamp
field is absent fails with `NoTimestampError` instead of producing a `Tx`. -/
theorem C8_tx_bytes_roundtrip :
    (∀ tx : Proto.Tx, tx.timestamp.nanos < 0x100000000 →
      Proto.Tx.tryFrom (Proto.Tx.toBytes tx) = .ok tx) ∧
    (∀ code data,
      Proto.Tx.tryFrom (Proto.encodeProtoTx ⟨code, data, none⟩) =
        .error .noTimestampError) := by
  constructor
  · intro tx h32
    obtain ⟨code, data, ts⟩ := tx
    unfold Proto.Tx.tryFrom Proto.Tx.toBytes
    rw [Proto.decodeProtoTx_encode code data (some ts)
      (fun ts2 hts2 => by cases hts2; exact h32)]
  · intro code data
    unfold Proto.Tx.tryFrom
    rw [Proto.decodeProtoTx_encode code data none (fun ts hts => by cases hts)]

/-- Witness for C8 at a concrete transaction. -/
theorem C8_tx_bytes_roundtrip_witness :
    Proto.Tx.tryFrom (Proto.Tx.toBytes ⟨[1, 2], some [3], ⟨5, 6⟩⟩) =
      .ok ⟨[1, 2], some [3], ⟨5, 6⟩⟩ :=
  C8_tx_bytes_roundtrip.1 ⟨[1, 2], some [3], ⟨5, 6⟩⟩ (by norm_num)

/-- C5: `generate_address` sets `last_hash` to the first 40 upper-case
hexadecimal characters of the SHA-256 digest of the generator's Borsh-encoded
prior state concatenated with the randomness source, and returns an
`Established` address carrying that same 40-character hash. -/
theorem C5_generate_address_hash
    (g : Addr.EstablishedAddressGen) (rng : Bytes) :
    (Addr.generateAddress g rng).2.last_hash =
      (Addr.hexUpper (SHA256.sha256 (Addr.borshGen g ++ rng))).take 40 ∧
    (Addr.generateAddress g rng).1 =
      Addr.Address.established (Addr.generateAddress g rng).2.last_hash ∧
    (Addr.generateAddress g rng).2.last_hash.length = 40 := by
  refine ⟨rfl, rfl, ?_⟩
  have hlen : (Addr.hexUpper (SHA256.sha256 (Addr.borshGen g ++ rng))).length
      = 64 := by
    rw [Addr.hexUpper_length, SHA256.sha256_length]
  simp [Addr.generateAddress, Addr.HASH_LEN, hlen]

/-- C6: the generator is deterministic as a two-run property: two generators
with equal seeds fed identical sequences of randomness sources produce equal
address sequences and end in equal states. -/
theorem C6_generator_determinism
    (g1 g2 : Addr.EstablishedAddressGen) (srcs1 srcs2 : List Bytes)
    (hg : g1 = g2) (hs : srcs1 = srcs2) :
    (Addr.generateSeq g1 srcs1).1 = (Addr.generateSeq g2 srcs2).1 ∧
    (Addr.generateSeq g1 srcs1).2 = (Addr.generateSeq g2 srcs2).2 := by
  subst hg; subst hs; exact ⟨rfl, rfl⟩

/-- Witness for C6 at a concrete seed and source sequence. -/
theorem C6_generator_determinism_witness :
    (Addr.generateSeq ⟨[97]⟩ [[1], [2]]).1 =
      (Addr.generateSeq ⟨[97]⟩ [[1], [2]]).1 :=
  (C6_generator_determinism ⟨[97]⟩ ⟨[97]⟩ [[1], [2]] [[1], [2]] rfl rfl).1

/-- The testnet XAN token address string from `address.rs`, as ASCII bytes
(all lower-case). -/
def xanLower : List Nat :=
  [97, 49, 113, 113, 53, 113, 113, 113, 113, 113, 120, 117, 99, 53, 103, 118,
   122, 57, 103, 121, 99, 114, 121, 118, 51, 115, 103, 121, 101, 53, 118, 51,
   106, 57, 103, 118, 117, 114, 106, 118, 51, 52, 103, 57, 112, 114, 115,
   100, 54, 120, 56, 113, 117, 53, 120, 115, 50, 121, 103, 100, 122, 114,
   122, 115, 102, 51, 56, 113, 54, 114, 115, 115, 51, 51, 120, 102, 52, 50,
   102, 51]

/-- The same address string with every letter upper-cased. -/
def xanUpper : List Nat :=
  [65, 49, 81, 81, 53, 81, 81, 81, 81, 81, 88, 85, 67, 53, 71, 86, 90, 57,
   71, 89, 67, 82, 89, 86, 51, 83, 71, 89, 69, 53, 86, 51, 74, 57, 71, 86,
   85, 82, 74, 86, 51, 52, 71, 57, 80, 82, 83, 68, 54, 88, 56, 81, 85, 53,
   88, 83, 50, 89, 71, 68, 90, 82, 90, 83, 70, 51, 56, 81, 54, 82, 83, 83,
   51, 51, 88, 70, 52, 50, 70, 51]

/-- The 40-character hash carried by the XAN address (ASCII bytes of the
upper-case hex string). -/
def xanHash : List Nat :=
  [55, 49, 68, 48, 69, 65, 48, 50, 50, 48, 65, 51, 70, 70, 69, 67, 56, 57,
   50, 53, 65, 66, 56, 55, 70, 56, 57, 67, 65, 68, 67, 68, 49, 65, 49, 56,
   52, 56, 66, 49]

set_option maxRecDepth 16384 in
/-- C4 (counterexample): `Address::encode ∘ Address::decode` is not the
identity on every accepted string. The upper-case spelling of the XAN
address is accepted by `Address::decode` (the `bech32` crate lower-cases
internally), but `Address::encode` of the result is the lower-case
spelling, not the original input. -/
theorem C4_encode_decode_not_id :
    B32.addrDecode xanUpper = .ok (Addr.Address.established xanHash) ∧
    B32.addrEncode (Addr.Address.established xanHash) ≠ xanUpper :=
  ⟨by rfl, by decide⟩

/-- C4 (amended): for every accepted string, `encode ∘ decode` returns the
ASCII lower-casing of the input (hence the identity exactly on inputs with
no upper-case letters); decoding rejects a lower-cased human-readable part
other than `"a"` with `UnexpectedBech32Prefix`, a `Bech32` (non-`Bech32m`)
checksum with `UnexpectedBech32Variant`, and a decoded hash of length other
than 40 with `UnexpectedHashLength`. -/
theorem C4_address_codec_lowercase :
    (∀ s a, B32.addrDecode s = .ok a →
      B32.addrEncode a = s.map B32.toLowerByte) ∧
    (∀ s hrp data v, B32.bech32Decode s = .ok (hrp, data, v) →
      hrp ≠ [97] →
      B32.addrDecode s = .error (.unexpectedBech32Prefix hrp)) ∧
    (∀ s data, B32.bech32Decode s = .ok ([97], data, .bech32) →
      B32.addrDecode s = .error (.unexpectedBech32Variant .bech32)) ∧
    (∀ s data bytes hh,
      B32.bech32Decode s = .ok ([97], data, .bech32m) →
      B32.convertBits 5 8 false data = .ok bytes →
      B32.borshDecodeAddress bytes = some (.established hh) →
      hh.length ≠ 40 →
      B32.addrDecode s = .error (.unexpectedHashLength hh.length)) ∧
    (∀ s data bytes p,
      B32.bech32Decode s = .ok ([97], data, .bech32m) →
      B32.convertBits 5 8 false data = .ok bytes →
      B32.borshDecodeAddress bytes = some (.implicitEd25519 p) →
      p.length ≠ 40 →
      B32.addrDecode s = .error (.unexpectedHashLength p.length)) := by
  refine ⟨B32.addrEncode_of_decode, ?_, ?_, ?_, ?_⟩
  · intro s hrp data v h hne
    simp only [B32.addrDecode, h]
    rw [if_pos hne]
  · intro s data h
    simp [B32.addrDecode, h]
  · intro s data bytes hh h hcb hba hl
    simp only [B32.addrDecode, h, hcb, hba]
    simp [hl]
  · intro s data bytes p h hcb hba hl
    simp only [B32.addrDecode, h, hcb, hba]
    simp [hl]

set_option maxRecDepth 16384 in
/-- C4 (witness): the lower-case XAN address decodes to the Established
address with its 40-character hash, and re-encoding gives back exactly the
lower-case input. -/
theorem C4_address_codec_lowercase_witness :
    B32.addrDecode xanLower = .ok (Addr.Address.established xanHash) ∧
    B32.addrEncode (Addr.Address.established xanHash) =
      xanLower.map B32.toLowerByte ∧
    xanLower.map B32.toLowerByte = xanLower :=
  ⟨by rfl, C4_address_codec_lowercase.1 xanLower
    (Addr.Address.established xanHash) (by rfl), by decide⟩

end AnomaSpec
